import Mathlib

/-! # The lexer of lyka-lang (`src/interpreter/lexer/lexer.c`)

A shallow embedding of the scanner and statements about the tokens it returns.

Conventions of the embedding:

* the source buffer is a `List Char` holding the characters before the
  terminating NUL; a C `char` is one list element, and a read at an offset at or
  past the end of the list yields the NUL character (`charAt`);
* the pointers `scanner.start` and `scanner.current` are offsets into that
  buffer; `token.length` is the pointer difference `current - start`, never
  negative since `start ≤ current` at every `createToken`, or the length of the
  message, and is kept as a natural number;
* `scanner.line` and `token.line` are C `int`s and are kept as integers;
  `scanner.line++` is `intIncr`, which steps from `INT_MAX` to `INT_MIN`, the
  result of a two's-complement machine where C leaves the overflow undefined;
* the global `scanner` is passed explicitly: a function that updates it returns
  the new scanner next to its result;
* the two `while` loops run on fuel and return `none` when it runs out;
  `skipWhitespace` hands them `source.length + 1` iterations, and
  `skipWhitespace_returns` shows that this is always enough;
* the `switch` of `scanToken` has case bodies without `return`; each label that
  can be entered by falling through is a function of its own (`caseSlash`,
  `casePercent`, `caseI`, `caseU`, `caseF`, `caseDefault`) whose body ends in the
  next label's function where the C text runs into the next label;
* the reads of the buffer are listed by the functions named `...Reads`, one for
  each function of lexer.c that reads `*scanner.current` or `scanner.current[1]`,
  in the order in which the C text performs them; the scanner states they refer
  to are those of the functions above.
-/

namespace Lyka

/-- Modelled from the spec: the enumeration `TokenType` is declared in `token.h`,
which is not among the sources. The members are the kinds that `lexer.c` names
outside comments; the spec lists the same kinds (end-of-file, error, punctuation,
one- and two-character operators, the ten numeric-type keywords). -/
inductive TokenType
  | TOKEN_EOF | TOKEN_ERROR
  | TOKEN_SEMICOLON | TOKEN_COMMA | TOKEN_COLON
  | TOKEN_BANG | TOKEN_BANG_EQUAL | TOKEN_EQUAL | TOKEN_EQUAL_EQUAL
  | TOKEN_LEFT_PAREN | TOKEN_RIGHT_PAREN | TOKEN_LEFT_BRACE | TOKEN_RIGHT_BRACE
  | TOKEN_DOT | TOKEN_DOT_DOT
  | TOKEN_AND | TOKEN_BIT_AND | TOKEN_OR | TOKEN_BIT_OR | TOKEN_BIT_XOR | TOKEN_BIT_NOT
  | TOKEN_LESS | TOKEN_LEFT_SHIFT | TOKEN_GREATER | TOKEN_RIGHT_SHIFT
  | TOKEN_PLUS | TOKEN_PLUS_EQUAL | TOKEN_MINUS | TOKEN_MINUS_EQUAL
  | TOKEN_STAR | TOKEN_STAR_EQUAL | TOKEN_SLASH | TOKEN_SLASH_EQUAL
  | TOKEN_MODULO | TOKEN_MODULO_EQUAL
  | TOKEN_I8 | TOKEN_I16 | TOKEN_I32 | TOKEN_I64
  | TOKEN_U8 | TOKEN_U16 | TOKEN_U32 | TOKEN_U64
  | TOKEN_F32 | TOKEN_F64
  deriving DecidableEq, Repr

open TokenType

/-- The target of `token.start`: an offset into the source buffer (`createToken`)
or a string literal of the program (`errorToken`). -/
inductive CharPtr
  | inSource (offset : Nat)
  | inLiteral (text : String)
  deriving DecidableEq, Repr

/-- Modelled from the spec: the struct `Token` is declared in `token.h`, which is
not among the sources. The fields are the four that `createToken` and
`errorToken` assign: `token`, `start`, `length`, `line`. -/
structure Token where
  token : TokenType
  start : CharPtr
  length : Nat
  line : Int
  deriving DecidableEq, Repr

/-- The struct `Scanner` (lexer.c 11-16), pointers as offsets into the source. -/
structure Scanner where
  start : Nat
  current : Nat
  line : Int
  deriving DecidableEq, Repr

/-- The values of a C `int` of 32 bits: from `INT_MIN` to `INT_MAX`. -/
def IsInt (x : Int) : Prop :=
  -2147483648 ≤ x ∧ x ≤ 2147483647

/-- The statement `scanner.line++` (lexer.c 70) on an `int`: one more, and from
`INT_MAX` the two's-complement result `INT_MIN` (the overflow is undefined in
C; whatever the machine does, the result is an `int`). -/
def intIncr (x : Int) : Int :=
  if x = 2147483647 then -2147483648 else x + 1

/-- The `int` that a two's-complement machine holds for the integer `x`. -/
def wrapInt (x : Int) : Int :=
  (x + 2147483648) % 4294967296 - 2147483648

/-- The NUL character that terminates the source buffer. -/
def NUL : Char := Char.ofNat 0

/-- The character read at offset `i` of the NUL-terminated buffer. -/
def charAt (source : List Char) (i : Nat) : Char :=
  source.getD i NUL

/-- The text a consumer prints for a token with `%.*s`: `length` characters from
`start`. -/
def Token.lexeme (source : List Char) (t : Token) : List Char :=
  match t.start with
  | CharPtr.inSource offset => (source.drop offset).take t.length
  | CharPtr.inLiteral text => text.toList.take t.length

/-- Function `initScanner` (lexer.c 20-25). -/
def initScanner (_source : List Char) : Scanner :=
  { start := 0, current := 0, line := 1 }

/-- Function `isAtEnd` (lexer.c 27-34). -/
def isAtEnd (source : List Char) (s : Scanner) : Bool :=
  if charAt source s.current = NUL then true else false

/-- Function `advance` (lexer.c 36-40): the character returned and the scanner
after the call. -/
def advance (source : List Char) (s : Scanner) : Char × Scanner :=
  if isAtEnd source s then (NUL, s)
  else (charAt source s.current, { s with current := s.current + 1 })

/-- Function `peek` (lexer.c 42-45). -/
def peek (source : List Char) (s : Scanner) : Char :=
  charAt source s.current

/-- Function `peekNext` (lexer.c 47-54). -/
def peekNext (source : List Char) (s : Scanner) : Char :=
  if charAt source s.current = NUL ∧ charAt source (s.current + 1) = NUL then NUL
  else charAt source (s.current + 1)

/-- The inner loop of `skipWhitespace` (lexer.c 76-79):
`while (!isAtEnd() && *scanner.current != '\n') advance();`. -/
def skipCommentLoop (source : List Char) : Nat → Scanner → Option Scanner
  | 0, _ => none
  | fuel + 1, s =>
    if isAtEnd source s = false ∧ charAt source s.current ≠ '\n' then
      skipCommentLoop source fuel (advance source s).2
    else some s

/-- The outer loop of `skipWhitespace` (lexer.c 58-88). -/
def skipWhitespaceLoop (source : List Char) : Nat → Scanner → Option Scanner
  | 0, _ => none
  | fuel + 1, s =>
    let current_char := peek source s
    if current_char = ' ' ∨ current_char = '\t' ∨ current_char = '\r' then
      skipWhitespaceLoop source fuel (advance source s).2
    else if current_char = '\n' then
      skipWhitespaceLoop source fuel (advance source { s with line := intIncr s.line }).2
    else if current_char = '/' then
      if peekNext source s = '/' then
        match skipCommentLoop source (source.length + 1) s with
        | none => none
        | some s1 => skipWhitespaceLoop source fuel s1
      else some s
    else some s

/-- Function `skipWhitespace` (lexer.c 56-89). -/
def skipWhitespace (source : List Char) (s : Scanner) : Option Scanner :=
  skipWhitespaceLoop source (source.length + 1) s

/-- Function `createToken` (lexer.c 91-99). Every call site has
`start ≤ current`, where the pointer difference is the truncated difference. -/
def createToken (token_type : TokenType) (s : Scanner) : Token :=
  { token := token_type
    start := CharPtr.inSource s.start
    length := s.current - s.start
    line := s.line }

/-- Function `errorToken` (lexer.c 101-109). -/
def errorToken (message : String) (s : Scanner) : Token :=
  { token := TOKEN_ERROR
    start := CharPtr.inLiteral message
    length := message.length
    line := s.line }

/-- Function `match` (lexer.c 161-167): the result and the scanner after the
call. -/
def matchChar (source : List Char) (expected : Char) (s : Scanner) : Bool × Scanner :=
  if isAtEnd source s then (false, s)
  else if charAt source s.current ≠ expected then (false, s)
  else (true, { s with current := s.current + 1 })

/-- The `default:` label of `scanToken` (lexer.c 309-310). -/
def caseDefault (s : Scanner) : Token × Scanner :=
  (errorToken "Unexpected character." s, s)

/-- The `case 'f':` label of `scanToken` (lexer.c 292-307); a path that does
not return runs into `default:`. -/
def caseF (source : List Char) (s : Scanner) : Token × Scanner :=
  let nextF := peek source s
  if nextF = '3' then
    let s1 := (advance source s).2
    if peek source s1 = '2' then
      let s2 := (advance source s1).2
      (createToken TOKEN_F32 s2, s2)
    else caseDefault s1
  else if nextF = '6' then
    let s1 := (advance source s).2
    if peek source s1 = '4' then
      let s2 := (advance source s1).2
      (createToken TOKEN_F64 s2, s2)
    else caseDefault s1
  else caseDefault s

/-- The `case 'u':` label of `scanToken` (lexer.c 265-291); a path that does
not return runs into `case 'f':`. -/
def caseU (source : List Char) (s : Scanner) : Token × Scanner :=
  let nextU := peek source s
  if nextU = '8' then
    let s1 := (advance source s).2
    (createToken TOKEN_U8 s1, s1)
  else if nextU = '1' then
    let s1 := (advance source s).2
    if peek source s1 = '6' then
      let s2 := (advance source s1).2
      (createToken TOKEN_U16 s2, s2)
    else caseF source s1
  else if nextU = '3' then
    let s1 := (advance source s).2
    if peek source s1 = '2' then
      let s2 := (advance source s1).2
      (createToken TOKEN_U32 s2, s2)
    else caseF source s1
  else if nextU = '6' then
    let s1 := (advance source s).2
    if peek source s1 = '4' then
      let s2 := (advance source s1).2
      (createToken TOKEN_U64 s2, s2)
    else caseF source s1
  else caseF source s

/-- The `case 'i':` label of `scanToken` (lexer.c 239-264); a path that does
not return runs into `case 'u':`. The `'6'` branch returns `TOKEN_I64` without
an `advance()` over the `'4'` (lexer.c 261-263). -/
def caseI (source : List Char) (s : Scanner) : Token × Scanner :=
  let nextI := peek source s
  if nextI = '8' then
    let s1 := (advance source s).2
    (createToken TOKEN_I8 s1, s1)
  else if nextI = '1' then
    let s1 := (advance source s).2
    if peek source s1 = '6' then
      let s2 := (advance source s1).2
      (createToken TOKEN_I16 s2, s2)
    else caseU source s1
  else if nextI = '3' then
    let s1 := (advance source s).2
    if peek source s1 = '2' then
      let s2 := (advance source s1).2
      (createToken TOKEN_I32 s2, s2)
    else caseU source s1
  else if nextI = '6' then
    let s1 := (advance source s).2
    if peek source s1 = '4' then
      (createToken TOKEN_I64 s1, s1)
    else caseU source s1
  else caseU source s

/-- The `case '%':` label of `scanToken` (lexer.c 234-235): `match('=')` runs,
the token built by `createToken` is dropped (there is no `return`), and control
runs into `case 'i':`. -/
def casePercent (source : List Char) (s : Scanner) : Token × Scanner :=
  let s1 := (matchChar source '=' s).2
  caseI source s1

/-- The `case '/':` label of `scanToken` (lexer.c 232-233): `match('=')` runs,
the token built by `createToken` is dropped (there is no `return`), and control
runs into `case '%':`. -/
def caseSlash (source : List Char) (s : Scanner) : Token × Scanner :=
  let s1 := (matchChar source '=' s).2
  casePercent source s1

/-- The statement `return createToken(match(expected) ? matched : unmatched);`
of the operator cases of `scanToken`: `match` runs first, `createToken` reads the
scanner after it. -/
def returnMatch (source : List Char) (expected : Char) (matched unmatched : TokenType)
    (s : Scanner) : Token × Scanner :=
  let r := matchChar source expected s
  (createToken (if r.1 then matched else unmatched) r.2, r.2)

/-- The `switch (c)` of `scanToken` (lexer.c 177-311), entered with the scanner
as it is after `advance()`. -/
def switchChar (source : List Char) (c : Char) (s : Scanner) : Token × Scanner :=
  if c = ';' then (createToken TOKEN_SEMICOLON s, s)
  else if c = ',' then (createToken TOKEN_COMMA s, s)
  else if c = ':' then (createToken TOKEN_COLON s, s)
  else if c = '!' then returnMatch source '=' TOKEN_BANG_EQUAL TOKEN_BANG s
  else if c = '=' then returnMatch source '=' TOKEN_EQUAL_EQUAL TOKEN_EQUAL s
  else if c = '(' then (createToken TOKEN_LEFT_PAREN s, s)
  else if c = ')' then (createToken TOKEN_RIGHT_PAREN s, s)
  else if c = '{' then (createToken TOKEN_LEFT_BRACE s, s)
  else if c = '}' then (createToken TOKEN_RIGHT_BRACE s, s)
  else if c = '[' then (createToken TOKEN_LEFT_PAREN s, s)
  else if c = ']' then (createToken TOKEN_RIGHT_PAREN s, s)
  else if c = '.' then returnMatch source '.' TOKEN_DOT_DOT TOKEN_DOT s
  else if c = '&' then returnMatch source '&' TOKEN_AND TOKEN_BIT_AND s
  else if c = '|' then returnMatch source '|' TOKEN_OR TOKEN_BIT_OR s
  else if c = '^' then (createToken TOKEN_BIT_XOR s, s)
  else if c = '~' then (createToken TOKEN_BIT_NOT s, s)
  else if c = '<' then returnMatch source '<' TOKEN_LESS TOKEN_LEFT_SHIFT s
  else if c = '>' then returnMatch source '>' TOKEN_GREATER TOKEN_RIGHT_SHIFT s
  else if c = '+' then returnMatch source '=' TOKEN_PLUS_EQUAL TOKEN_PLUS s
  else if c = '-' then returnMatch source '=' TOKEN_MINUS_EQUAL TOKEN_MINUS s
  else if c = '*' then returnMatch source '=' TOKEN_STAR_EQUAL TOKEN_STAR s
  else if c = '/' then caseSlash source s
  else if c = '%' then casePercent source s
  else if c = 'i' then caseI source s
  else if c = 'u' then caseU source s
  else if c = 'f' then caseF source s
  else caseDefault s

/-- Function `scanToken` (lexer.c 169-312): the token returned and the scanner
after the call; `none` only if the whitespace loop ran out of fuel. -/
def scanToken (source : List Char) (s : Scanner) : Option (Token × Scanner) :=
  match skipWhitespace source s with
  | none => none
  | some s1 =>
    let s2 := { s1 with start := s1.current }
    if isAtEnd source s2 then some (createToken TOKEN_EOF s2, s2)
    else
      let r := advance source s2
      some (switchChar source r.1 r.2)

/-- The result of the last of `k + 1` consecutive calls of `scanToken`. -/
def scanCalls (source : List Char) : Nat → Scanner → Option (Token × Scanner)
  | 0, s => scanToken source s
  | k + 1, s =>
    match scanToken source s with
    | none => none
    | some r => scanCalls source k r.2

/-- The lexing loop of `runFile` (lexer.c 321-332): the tokens it prints, up to
and including the first `TOKEN_EOF`; at most `fuel` calls of `scanToken`. -/
def lexLoop (source : List Char) : Nat → Scanner → Option (List Token)
  | 0, _ => none
  | fuel + 1, s =>
    match scanToken source s with
    | none => none
    | some r =>
      if r.1.token = TOKEN_EOF then some [r.1]
      else (lexLoop source fuel r.2).map (fun rest => r.1 :: rest)

/-- Function `runFile` (lexer.c 314-334) on a buffer that `readFile` returned:
`initScanner`, then the lexing loop. `runFile_returns` shows that
`source.length + 1` calls always reach `TOKEN_EOF`. -/
def runFile (source : List Char) : Option (List Token) :=
  lexLoop source (source.length + 1) (initScanner source)

/-- The kind, text and line of a token, as `runFile` prints them. -/
def Token.shown (source : List Char) (t : Token) : TokenType × String × Nat × Int :=
  (t.token, String.mk (t.lexeme source), t.length, t.line)

/-- The tokens `runFile` prints for a source text, each as `Token.shown`:
kind, lexeme, length, line. -/
def shownTokens (text : String) : Option (List (TokenType × String × Nat × Int)) :=
  (runFile text.toList).map (fun toks => toks.map (Token.shown text.toList))

/-- The token that the first `scanToken` call after `initScanner` returns for a
source text, as `Token.shown`, and the scanner after the call. -/
def firstToken (text : String) : Option ((TokenType × String × Nat × Int) × Scanner) :=
  (scanToken text.toList (initScanner text.toList)).map
    (fun r => (Token.shown text.toList r.1, r.2))

/-- The characters that `skipWhitespace` consumes one at a time
(lexer.c 64-69). -/
def blankChars : List Char := [' ', '\t', '\r', '\n']

/-- The `case` labels of the `switch` in `scanToken` (lexer.c 179-292). -/
def switchLabels : List Char :=
  [';', ',', ':', '!', '=', '(', ')', '{', '}', '[', ']', '.', '&', '|', '^', '~',
   '<', '>', '+', '-', '*', '/', '%', 'i', 'u', 'f']

/-- A text made up only of spaces, tabs, carriage returns, newlines and `//`
comments, each comment running to the next newline or to the end of the text. -/
inductive Blank : List Char → Prop
  | done : Blank []
  | space (c : Char) (rest : List Char) :
      c ∈ blankChars → Blank rest → Blank (c :: rest)
  | lastComment (body : List Char) :
      '\n' ∉ body → Blank ('/' :: '/' :: body)
  | comment (body rest : List Char) :
      '\n' ∉ body → Blank rest → Blank ('/' :: '/' :: (body ++ '\n' :: rest))

/-- The scanner `t` is `s` after some calls of `advance` and `match`: same
`start` and `line`, `current` not smaller, and still inside the buffer if it
was. -/
def Moved (source : List Char) (s t : Scanner) : Prop :=
  t.start = s.start ∧ t.line = s.line ∧ s.current ≤ t.current ∧
    (s.current ≤ source.length → t.current ≤ source.length)

/-- The pair `r` is a token other than `TOKEN_EOF` returned on the line of `s`,
with the scanner moved on from `s`. -/
def Returned (source : List Char) (s : Scanner) (r : Token × Scanner) : Prop :=
  Moved source s r.2 ∧ r.1.token ≠ TOKEN_EOF ∧ r.1.line = s.line

/-- The scanner `t` is `s` after `skipWhitespace`: same `start`, `line` still
an `int` if it was, `current` not smaller and still inside the buffer if it
was. -/
def Skipped (source : List Char) (s t : Scanner) : Prop :=
  t.start = s.start ∧ (IsInt s.line → IsInt t.line) ∧ s.current ≤ t.current ∧
    (s.current ≤ source.length → t.current ≤ source.length)

/-- The cursor invariant of the scanner: `start ≤ current ≤ length`. -/
def CursorInv (source : List Char) (s : Scanner) : Prop :=
  s.start ≤ s.current ∧ s.current ≤ source.length

/-- The number of newline characters of the source before offset `n`. -/
def newlinesBefore (source : List Char) (n : Nat) : Nat :=
  (source.take n).count '\n'

/-- No character of the source at an offset from `a` up to, not including, `b`
is a newline. -/
def Plain (source : List Char) (a b : Nat) : Prop :=
  ∀ i, a ≤ i → i < b → charAt source i ≠ '\n'

/-- The line counter of the scanner is the `int` held for 1 plus the number of
newline characters before `current`. -/
def LineInv (source : List Char) (s : Scanner) : Prop :=
  s.line = wrapInt (1 + newlinesBefore source s.current)

/-- The pair `r` is what a label of the `switch` returns when no newline was
consumed from offset `a` on: the characters from `a` to the new `current` are no
newlines, and the token is the error token or one that `createToken` builds
from the scanner returned. -/
def Kept (source : List Char) (a : Nat) (r : Token × Scanner) : Prop :=
  Plain source a r.2.current ∧
    (r.1 = errorToken "Unexpected character." r.2 ∨ ∃ k, r.1 = createToken k r.2)

/-- The scanner `s` moved `d` characters to the right. -/
def shift (d : Nat) (s : Scanner) : Scanner :=
  { start := s.start + d, current := s.current + d, line := s.line }

/-- The token `t` with its pointer into the source moved `d` characters to the
right; a pointer to a message stays. -/
def shiftToken (d : Nat) (t : Token) : Token :=
  { t with
    start := match t.start with
      | CharPtr.inSource offset => CharPtr.inSource (offset + d)
      | CharPtr.inLiteral text => CharPtr.inLiteral text }

/-- A result of `scanToken` moved `d` characters to the right. -/
def shiftResult (d : Nat) (r : Token × Scanner) : Token × Scanner :=
  (shiftToken d r.1, shift d r.2)

/-- The source `long` reads from offset `d` on as the source `short` reads from
offset 0 on, for instance `long = pre ++ short` with `d = pre.length`. -/
def ReadsAs (long short : List Char) (d : Nat) : Prop :=
  short.length ≤ long.length ∧ ∀ i, charAt long (i + d) = charAt short i

/-- The functions of lexer.c whose bodies read a character of the buffer. -/
inductive Reader
  | byIsAtEnd | byAdvance | byPeek | byPeekNext | bySkipWhitespace | byMatch
  deriving DecidableEq, Repr

/-- One read of the buffer: the function that reads, the offset read, and
`scanner.current` at that moment. -/
structure Read where
  reader : Reader
  offset : Nat
  current : Nat
  deriving DecidableEq, Repr

/-- The read of `isAtEnd` (lexer.c 29): `*scanner.current`. -/
def isAtEndReads (s : Scanner) : List Read :=
  [⟨Reader.byIsAtEnd, s.current, s.current⟩]

/-- The reads of `advance` (lexer.c 38-39): the call of `isAtEnd`, then
`*scanner.current++` unless at the end. -/
def advanceReads (source : List Char) (s : Scanner) : List Read :=
  isAtEndReads s ++
    (if isAtEnd source s then [] else [⟨Reader.byAdvance, s.current, s.current⟩])

/-- The read of `peek` (lexer.c 44): `*scanner.current`. -/
def peekReads (s : Scanner) : List Read :=
  [⟨Reader.byPeek, s.current, s.current⟩]

/-- The reads of `peekNext` (lexer.c 49-53): `*scanner.current`; then
`scanner.current[1]` in the condition if the first operand of `&&` holds; then
`scanner.current[1]` in the second `return` unless the condition held. -/
def peekNextReads (source : List Char) (s : Scanner) : List Read :=
  [⟨Reader.byPeekNext, s.current, s.current⟩] ++
    (if charAt source s.current = NUL then [⟨Reader.byPeekNext, s.current + 1, s.current⟩]
      else []) ++
    (if charAt source s.current = NUL ∧ charAt source (s.current + 1) = NUL then []
      else [⟨Reader.byPeekNext, s.current + 1, s.current⟩])

/-- The reads of `match` (lexer.c 163-164): the call of `isAtEnd`, then
`*scanner.current` unless at the end. -/
def matchReads (source : List Char) (s : Scanner) : List Read :=
  isAtEndReads s ++
    (if isAtEnd source s then [] else [⟨Reader.byMatch, s.current, s.current⟩])

/-- The reads of the inner loop of `skipWhitespace` (lexer.c 76-79): per
iteration the call of `isAtEnd`, then `*scanner.current` unless at the end, then
the call of `advance` if the loop goes on. -/
def skipCommentLoopReads (source : List Char) : Nat → Scanner → List Read
  | 0, _ => []
  | fuel + 1, s =>
    isAtEndReads s ++
      (if isAtEnd source s then []
        else
          [⟨Reader.bySkipWhitespace, s.current, s.current⟩] ++
            (if charAt source s.current ≠ '\n' then
              advanceReads source s ++ skipCommentLoopReads source fuel (advance source s).2
            else []))

/-- The reads of the outer loop of `skipWhitespace` (lexer.c 58-88): per
iteration the call of `peek`, then the reads of the case taken. -/
def skipWhitespaceLoopReads (source : List Char) : Nat → Scanner → List Read
  | 0, _ => []
  | fuel + 1, s =>
    let current_char := peek source s
    peekReads s ++
      (if current_char = ' ' ∨ current_char = '\t' ∨ current_char = '\r' then
        advanceReads source s ++ skipWhitespaceLoopReads source fuel (advance source s).2
      else if current_char = '\n' then
        advanceReads source { s with line := intIncr s.line } ++
          skipWhitespaceLoopReads source fuel
            (advance source { s with line := intIncr s.line }).2
      else if current_char = '/' then
        peekNextReads source s ++
          (if peekNext source s = '/' then
            skipCommentLoopReads source (source.length + 1) s ++
              (match skipCommentLoop source (source.length + 1) s with
                | none => []
                | some s1 => skipWhitespaceLoopReads source fuel s1)
          else [])
      else [])

/-- The reads of `skipWhitespace` (lexer.c 56-89). -/
def skipWhitespaceReads (source : List Char) (s : Scanner) : List Read :=
  skipWhitespaceLoopReads source (source.length + 1) s

/-- The reads from the `case 'f':` label on (lexer.c 292-310). -/
def caseFReads (source : List Char) (s : Scanner) : List Read :=
  let nextF := peek source s
  peekReads s ++
    (if nextF = '3' then
      let s1 := (advance source s).2
      advanceReads source s ++ peekReads s1 ++
        (if peek source s1 = '2' then advanceReads source s1 else [])
    else if nextF = '6' then
      let s1 := (advance source s).2
      advanceReads source s ++ peekReads s1 ++
        (if peek source s1 = '4' then advanceReads source s1 else [])
    else [])

/-- The reads from the `case 'u':` label on (lexer.c 265-310). -/
def caseUReads (source : List Char) (s : Scanner) : List Read :=
  let nextU := peek source s
  peekReads s ++
    (if nextU = '8' then advanceReads source s
    else if nextU = '1' then
      let s1 := (advance source s).2
      advanceReads source s ++ peekReads s1 ++
        (if peek source s1 = '6' then advanceReads source s1 else caseFReads source s1)
    else if nextU = '3' then
      let s1 := (advance source s).2
      advanceReads source s ++ peekReads s1 ++
        (if peek source s1 = '2' then advanceReads source s1 else caseFReads source s1)
    else if nextU = '6' then
      let s1 := (advance source s).2
      advanceReads source s ++ peekReads s1 ++
        (if peek source s1 = '4' then advanceReads source s1 else caseFReads source s1)
    else caseFReads source s)

/-- The reads from the `case 'i':` label on (lexer.c 239-310). -/
def caseIReads (source : List Char) (s : Scanner) : List Read :=
  let nextI := peek source s
  peekReads s ++
    (if nextI = '8' then advanceReads source s
    else if nextI = '1' then
      let s1 := (advance source s).2
      advanceReads source s ++ peekReads s1 ++
        (if peek source s1 = '6' then advanceReads source s1 else caseUReads source s1)
    else if nextI = '3' then
      let s1 := (advance source s).2
      advanceReads source s ++ peekReads s1 ++
        (if peek source s1 = '2' then advanceReads source s1 else caseUReads source s1)
    else if nextI = '6' then
      let s1 := (advance source s).2
      advanceReads source s ++ peekReads s1 ++
        (if peek source s1 = '4' then [] else caseUReads source s1)
    else caseUReads source s)

/-- The reads from the `case '%':` label on (lexer.c 234-310). -/
def casePercentReads (source : List Char) (s : Scanner) : List Read :=
  matchReads source s ++ caseIReads source (matchChar source '=' s).2

/-- The reads from the `case '/':` label on (lexer.c 232-310). -/
def caseSlashReads (source : List Char) (s : Scanner) : List Read :=
  matchReads source s ++ casePercentReads source (matchChar source '=' s).2

/-- The reads of the `switch (c)` of `scanToken` (lexer.c 177-311): none for the
single-character cases, the call of `match` for the operator cases, and the
reads from the label on for the cases without `return`. -/
def switchCharReads (source : List Char) (c : Char) (s : Scanner) : List Read :=
  if c = ';' then []
  else if c = ',' then []
  else if c = ':' then []
  else if c = '!' then matchReads source s
  else if c = '=' then matchReads source s
  else if c = '(' then []
  else if c = ')' then []
  else if c = '{' then []
  else if c = '}' then []
  else if c = '[' then []
  else if c = ']' then []
  else if c = '.' then matchReads source s
  else if c = '&' then matchReads source s
  else if c = '|' then matchReads source s
  else if c = '^' then []
  else if c = '~' then []
  else if c = '<' then matchReads source s
  else if c = '>' then matchReads source s
  else if c = '+' then matchReads source s
  else if c = '-' then matchReads source s
  else if c = '*' then matchReads source s
  else if c = '/' then caseSlashReads source s
  else if c = '%' then casePercentReads source s
  else if c = 'i' then caseIReads source s
  else if c = 'u' then caseUReads source s
  else if c = 'f' then caseFReads source s
  else []

/-- The reads of one call of `scanToken` (lexer.c 169-312): those of
`skipWhitespace`, the call of `isAtEnd`, and unless at the end the call of
`advance` and the reads of the `switch`. -/
def scanTokenReads (source : List Char) (s : Scanner) : List Read :=
  skipWhitespaceReads source s ++
    (match skipWhitespace source s with
      | none => []
      | some s1 =>
        let s2 := { s1 with start := s1.current }
        isAtEndReads s2 ++
          (if isAtEnd source s2 then []
            else
              advanceReads source s2 ++
                switchCharReads source (advance source s2).1 (advance source s2).2))

/-- The reads of `k + 1` consecutive calls of `scanToken`. -/
def scanCallsReads (source : List Char) : Nat → Scanner → List Read
  | 0, s => scanTokenReads source s
  | k + 1, s =>
    scanTokenReads source s ++
      (match scanToken source s with
        | none => []
        | some r => scanCallsReads source k r.2)

/-- A read inside the buffer: the offset is at most `length`, the offset of the
terminator; it is `current` or `current + 1`; and a read by `peekNext` happens
with a `'/'` at `current`, hence before the terminator. -/
def Read.Safe (source : List Char) (rd : Read) : Prop :=
  rd.offset ≤ source.length ∧ rd.current ≤ rd.offset ∧ rd.offset ≤ rd.current + 1 ∧
    (rd.reader = Reader.byPeekNext →
      charAt source rd.current = '/' ∧ rd.current < source.length)

/-- Every read of the list is inside the buffer. -/
def AllSafe (source : List Char) (reads : List Read) : Prop :=
  ∀ rd ∈ reads, rd.Safe source

/-! ## The line counter as a C `int` -/

theorem IsInt.incr {x : Int} (h : IsInt x) : IsInt (intIncr x) := by
  unfold IsInt intIncr at *
  split_ifs <;> omega

theorem wrapInt_isInt (x : Int) : IsInt (wrapInt x) := by
  unfold IsInt wrapInt
  omega

theorem wrapInt_of_isInt {x : Int} (h : IsInt x) : wrapInt x = x := by
  unfold IsInt at h
  unfold wrapInt
  omega

theorem intIncr_wrapInt (x : Int) : intIncr (wrapInt x) = wrapInt (x + 1) := by
  unfold intIncr wrapInt
  split_ifs <;> omega

/-! ## Reading the buffer -/

theorem charAt_lt (source : List Char) (i : Nat) (h : charAt source i ≠ NUL) :
    i < source.length := by
  by_contra hlt
  exact h (List.getD_eq_default _ _ (Nat.le_of_not_lt hlt))

theorem charAt_append_cons (pre rest : List Char) (c : Char) :
    charAt (pre ++ c :: rest) pre.length = c := by
  unfold charAt
  rw [List.getD_eq_getElem?_getD, List.getElem?_append_right (Nat.le_refl _)]
  simp

theorem charAt_length (source : List Char) : charAt source source.length = NUL := by
  simp [charAt, List.getD_eq_getElem?_getD]

theorem isAtEnd_eq_true (source : List Char) (s : Scanner) :
    isAtEnd source s = true ↔ charAt source s.current = NUL := by
  unfold isAtEnd
  split_ifs with h <;> simp [h]

theorem isAtEnd_eq_false (source : List Char) (s : Scanner) :
    isAtEnd source s = false ↔ charAt source s.current ≠ NUL := by
  unfold isAtEnd
  split_ifs with h <;> simp [h]

theorem advance_of_ne (source : List Char) (s : Scanner)
    (h : charAt source s.current ≠ NUL) :
    advance source s = (charAt source s.current, { s with current := s.current + 1 }) := by
  unfold advance
  rw [(isAtEnd_eq_false source s).2 h]
  simp

theorem advance_of_eq (source : List Char) (s : Scanner)
    (h : charAt source s.current = NUL) : advance source s = (NUL, s) := by
  unfold advance
  rw [(isAtEnd_eq_true source s).2 h]
  simp

/-! ## Movement of the cursor -/

theorem Moved.refl (source : List Char) (s : Scanner) : Moved source s s :=
  ⟨rfl, rfl, Nat.le_refl _, fun h => h⟩

theorem Moved.trans {source : List Char} {s t u : Scanner}
    (h1 : Moved source s t) (h2 : Moved source t u) : Moved source s u := by
  obtain ⟨a1, b1, c1, d1⟩ := h1
  obtain ⟨a2, b2, c2, d2⟩ := h2
  exact ⟨a2.trans a1, b2.trans b1, Nat.le_trans c1 c2, fun h => d2 (d1 h)⟩

theorem advance_moved (source : List Char) (s : Scanner) :
    Moved source s (advance source s).2 := by
  by_cases h : charAt source s.current = NUL
  · rw [advance_of_eq source s h]
    exact Moved.refl source s
  · rw [advance_of_ne source s h]
    have := charAt_lt source s.current h
    exact ⟨rfl, rfl, Nat.le_succ _, fun _ => this⟩

theorem matchChar_moved (source : List Char) (expected : Char) (s : Scanner) :
    Moved source s (matchChar source expected s).2 := by
  unfold matchChar
  split_ifs with h1 h2
  · exact Moved.refl source s
  · exact Moved.refl source s
  · have := charAt_lt source s.current ((isAtEnd_eq_false source s).1 (by simpa using h1))
    exact ⟨rfl, rfl, Nat.le_succ _, fun _ => this⟩

/-! ## The labels of the `switch` -/

theorem createToken_returned {source : List Char} {s0 s : Scanner} (k : TokenType)
    (h : Moved source s0 s) (hk : k ≠ TOKEN_EOF) :
    Returned source s0 (createToken k s, s) :=
  ⟨h, hk, h.2.1⟩

theorem caseDefault_returned {source : List Char} {s0 s : Scanner}
    (h : Moved source s0 s) : Returned source s0 (caseDefault s) :=
  ⟨h, by simp [caseDefault, errorToken], h.2.1⟩

theorem caseF_returned {source : List Char} {s0 s : Scanner}
    (h : Moved source s0 s) : Returned source s0 (caseF source s) := by
  have h1 := h.trans (advance_moved source s)
  have h2 := h1.trans (advance_moved source (advance source s).2)
  unfold caseF
  simp only []
  split_ifs
  · exact createToken_returned _ h2 (by decide)
  · exact caseDefault_returned h1
  · exact createToken_returned _ h2 (by decide)
  · exact caseDefault_returned h1
  · exact caseDefault_returned h

theorem caseU_returned {source : List Char} {s0 s : Scanner}
    (h : Moved source s0 s) : Returned source s0 (caseU source s) := by
  have h1 := h.trans (advance_moved source s)
  have h2 := h1.trans (advance_moved source (advance source s).2)
  unfold caseU
  simp only []
  split_ifs
  · exact createToken_returned _ h1 (by decide)
  · exact createToken_returned _ h2 (by decide)
  · exact caseF_returned h1
  · exact createToken_returned _ h2 (by decide)
  · exact caseF_returned h1
  · exact createToken_returned _ h2 (by decide)
  · exact caseF_returned h1
  · exact caseF_returned h

theorem caseI_returned {source : List Char} {s0 s : Scanner}
    (h : Moved source s0 s) : Returned source s0 (caseI source s) := by
  have h1 := h.trans (advance_moved source s)
  have h2 := h1.trans (advance_moved source (advance source s).2)
  unfold caseI
  simp only []
  split_ifs
  · exact createToken_returned _ h1 (by decide)
  · exact createToken_returned _ h2 (by decide)
  · exact caseU_returned h1
  · exact createToken_returned _ h2 (by decide)
  · exact caseU_returned h1
  · exact createToken_returned _ h1 (by decide)
  · exact caseU_returned h1
  · exact caseU_returned h

theorem casePercent_returned {source : List Char} {s0 s : Scanner}
    (h : Moved source s0 s) : Returned source s0 (casePercent source s) :=
  caseI_returned (h.trans (matchChar_moved source '=' s))

theorem caseSlash_returned {source : List Char} {s0 s : Scanner}
    (h : Moved source s0 s) : Returned source s0 (caseSlash source s) :=
  casePercent_returned (h.trans (matchChar_moved source '=' s))

theorem returnMatch_returned {source : List Char} {s0 s : Scanner} (expected : Char)
    (a b : TokenType) (h : Moved source s0 s) (ha : a ≠ TOKEN_EOF) (hb : b ≠ TOKEN_EOF) :
    Returned source s0 (returnMatch source expected a b s) := by
  unfold returnMatch
  refine createToken_returned _ (h.trans (matchChar_moved source expected s)) ?_
  split_ifs
  · exact ha
  · exact hb

theorem ite_returned {source : List Char} {s0 : Scanner} {p : Prop} [Decidable p]
    {a b : Token × Scanner} (ha : Returned source s0 a) (hb : Returned source s0 b) :
    Returned source s0 (if p then a else b) := by
  split_ifs
  · exact ha
  · exact hb

theorem switchChar_returned {source : List Char} {s0 s : Scanner} (c : Char)
    (h : Moved source s0 s) : Returned source s0 (switchChar source c s) := by
  unfold switchChar
  repeat' with_reducible apply ite_returned
  all_goals with_reducible first
    | exact createToken_returned _ h (by decide)
    | exact returnMatch_returned _ _ _ h (by decide) (by decide)
    | exact caseSlash_returned h
    | exact casePercent_returned h
    | exact caseI_returned h
    | exact caseU_returned h
    | exact caseF_returned h
    | exact caseDefault_returned h

/-! ## The loops of `skipWhitespace` return -/

theorem skipCommentLoop_step (source : List Char) (fuel : Nat) (s : Scanner)
    (h0 : charAt source s.current ≠ NUL) (hn : charAt source s.current ≠ '\n') :
    skipCommentLoop source (fuel + 1) s =
      skipCommentLoop source fuel { s with current := s.current + 1 } := by
  rw [skipCommentLoop, if_pos ⟨(isAtEnd_eq_false source s).2 h0, hn⟩, advance_of_ne source s h0]

theorem skipCommentLoop_stop (source : List Char) (fuel : Nat) (s : Scanner)
    (h : charAt source s.current = NUL ∨ charAt source s.current = '\n') :
    skipCommentLoop source (fuel + 1) s = some s := by
  rw [skipCommentLoop, if_neg]
  rintro ⟨h0, hn⟩
  rcases h with h | h
  · exact (isAtEnd_eq_false source s).1 h0 h
  · exact hn h

theorem skipCommentLoop_returns (source : List Char) (fuel : Nat) (s : Scanner)
    (hfuel : source.length - s.current < fuel) :
    ∃ t, skipCommentLoop source fuel s = some t ∧ Moved source s t ∧
      (charAt source s.current ≠ NUL → charAt source s.current ≠ '\n' →
        s.current < t.current) := by
  induction fuel generalizing s with
  | zero => exact absurd hfuel (Nat.not_lt_zero _)
  | succ fuel ih =>
    by_cases h : charAt source s.current = NUL ∨ charAt source s.current = '\n'
    · refine ⟨s, skipCommentLoop_stop source fuel s h, Moved.refl source s, ?_⟩
      intro h0 hn
      rcases h with h | h
      · exact absurd h h0
      · exact absurd h hn
    · have h0 : charAt source s.current ≠ NUL := fun e => h (Or.inl e)
      have hn : charAt source s.current ≠ '\n' := fun e => h (Or.inr e)
      have hlt := charAt_lt source s.current h0
      obtain ⟨t, ht, hm, _⟩ := ih { s with current := s.current + 1 } (by simp only; omega)
      refine ⟨t, ?_, ?_, ?_⟩
      · rw [skipCommentLoop_step source fuel s h0 hn]
        exact ht
      · obtain ⟨a, b, c, d⟩ := hm
        exact ⟨a, b, by simp only at c; omega, fun _ => d hlt⟩
      · intro _ _
        have := hm.2.2.1
        simp only at this
        omega

theorem skipWhitespaceLoop_returns (source : List Char) (fuel : Nat) (s : Scanner)
    (hfuel : source.length - s.current < fuel) :
    ∃ t, skipWhitespaceLoop source fuel s = some t ∧ Skipped source s t := by
  induction fuel generalizing s with
  | zero => exact absurd hfuel (Nat.not_lt_zero _)
  | succ fuel ih =>
    rw [skipWhitespaceLoop]
    simp only [peek]
    split_ifs with hws hnl hsl hnx
    · have h0 : charAt source s.current ≠ NUL := by
        rcases hws with h | h | h <;> rw [h] <;> decide
      have hlt := charAt_lt source s.current h0
      rw [advance_of_ne source s h0]
      obtain ⟨t, ht, a, b, c, d⟩ := ih { s with current := s.current + 1 } (by simp only; omega)
      exact ⟨t, ht, a, b, by simp only at c; omega, fun _ => d hlt⟩
    · have h0 : charAt source s.current ≠ NUL := by rw [hnl]; decide
      have hlt := charAt_lt source s.current h0
      rw [advance_of_ne source { s with line := intIncr s.line } h0]
      obtain ⟨t, ht, a, b, c, d⟩ :=
        ih { s with line := intIncr s.line, current := s.current + 1 } (by simp only; omega)
      exact ⟨t, ht, a, fun hi => b hi.incr, by simp only at c; omega, fun _ => d hlt⟩
    · have h0 : charAt source s.current ≠ NUL := by rw [hsl]; decide
      have hn : charAt source s.current ≠ '\n' := by rw [hsl]; decide
      have hlt := charAt_lt source s.current h0
      obtain ⟨t1, ht1, hm, hgt⟩ :=
        skipCommentLoop_returns source (source.length + 1) s (by omega)
      have hgt := hgt h0 hn
      rw [ht1]
      obtain ⟨t, ht, a, b, c, d⟩ := ih t1 (by omega)
      obtain ⟨a1, b1, c1, d1⟩ := hm
      exact ⟨t, ht, a.trans a1, fun hi => b (by rw [b1]; exact hi), by omega,
        fun hle => d (d1 hle)⟩
    · exact ⟨s, rfl, rfl, fun hi => hi, Nat.le_refl _, fun hle => hle⟩
    · exact ⟨s, rfl, rfl, fun hi => hi, Nat.le_refl _, fun hle => hle⟩

/-- The fuel that `skipWhitespace` hands to its loops is always enough: the call
returns. -/
theorem skipWhitespace_returns (source : List Char) (s : Scanner) :
    ∃ t, skipWhitespace source s = some t ∧ Skipped source s t :=
  skipWhitespaceLoop_returns source (source.length + 1) s (by omega)

/-! ## The two exits of `scanToken` -/

/-- Every call of `scanToken` returns: either at lexer.c 174 with `TOKEN_EOF`,
the cursor on the terminator, or out of the `switch` entered on the character
after the skipped whitespace. -/
theorem scanToken_cases (source : List Char) (s : Scanner) :
    ∃ t, skipWhitespace source s = some t ∧ Skipped source s t ∧
      ((charAt source t.current = NUL ∧
          scanToken source s =
            some (createToken TOKEN_EOF { t with start := t.current },
              { t with start := t.current })) ∨
       (charAt source t.current ≠ NUL ∧
          scanToken source s =
            some (switchChar source (charAt source t.current)
              { start := t.current, current := t.current + 1, line := t.line }))) := by
  obtain ⟨t, ht, hs⟩ := skipWhitespace_returns source s
  refine ⟨t, ht, hs, ?_⟩
  by_cases h : charAt source t.current = NUL
  · left
    refine ⟨h, ?_⟩
    have he : isAtEnd source { t with start := t.current } = true :=
      (isAtEnd_eq_true source _).2 h
    simp only [scanToken, ht, he, if_true]
  · right
    refine ⟨h, ?_⟩
    have he : isAtEnd source { t with start := t.current } = false :=
      (isAtEnd_eq_false source _).2 h
    have ha := advance_of_ne source { t with start := t.current } h
    simp only [scanToken, ht, he, ha]
    simp

theorem scanToken_returns (source : List Char) (s : Scanner) :
    ∃ r, scanToken source s = some r := by
  obtain ⟨t, _, _, h | h⟩ := scanToken_cases source s
  · exact ⟨_, h.2⟩
  · exact ⟨_, h.2⟩

/-- A call that returns `TOKEN_EOF` left through lexer.c 174: the cursor is on
the terminator, `start` equals `current`, and the token is the one that
`createToken` builds there. -/
theorem scanToken_eof {source : List Char} {s s1 : Scanner} {tok : Token}
    (h : scanToken source s = some (tok, s1)) (he : tok.token = TOKEN_EOF) :
    charAt source s1.current = NUL ∧ s1.start = s1.current ∧
      tok = createToken TOKEN_EOF s1 := by
  obtain ⟨t, _, hs, ⟨h0, hr⟩ | ⟨_, hr⟩⟩ := scanToken_cases source s
  · rw [hr] at h
    have h1 := congrArg Prod.fst (Option.some.inj h)
    have h2 := congrArg Prod.snd (Option.some.inj h)
    simp only at h1 h2
    subst h2
    exact ⟨h0, rfl, h1.symm⟩
  · rw [hr] at h
    have hret : Returned source ⟨t.current, t.current + 1, t.line⟩
        (switchChar source (charAt source t.current) ⟨t.current, t.current + 1, t.line⟩) :=
      switchChar_returned _ (Moved.refl source _)
    rw [Option.some.inj h] at hret
    exact absurd he hret.2.1

/-- A call that returns another token than `TOKEN_EOF` started before the
terminator and moved the cursor forward, not past the terminator. -/
theorem scanToken_not_eof {source : List Char} {s s1 : Scanner} {tok : Token}
    (h : scanToken source s = some (tok, s1)) (he : tok.token ≠ TOKEN_EOF) :
    s.current < s1.current ∧ s.current < source.length ∧ s1.current ≤ source.length := by
  obtain ⟨t, _, hs, ⟨_, hr⟩ | ⟨h0, hr⟩⟩ := scanToken_cases source s
  · rw [hr] at h
    have h1 := congrArg Prod.fst (Option.some.inj h)
    simp only at h1
    exact absurd (by rw [← h1]; rfl) he
  · rw [hr] at h
    have hret : Returned source ⟨t.current, t.current + 1, t.line⟩
        (switchChar source (charAt source t.current) ⟨t.current, t.current + 1, t.line⟩) :=
      switchChar_returned _ (Moved.refl source _)
    rw [Option.some.inj h] at hret
    have hlt := charAt_lt source t.current h0
    obtain ⟨⟨_, _, c, d⟩, _, _⟩ := hret
    have hc := hs.2.2.1
    simp only at c d
    exact ⟨by omega, by omega, d hlt⟩

/-- The state after a `TOKEN_EOF` is a fixed point: the next call returns the
same token and leaves the scanner as it is. -/
theorem scanToken_at_eof {source : List Char} {s1 : Scanner}
    (h0 : charAt source s1.current = NUL) (hst : s1.start = s1.current) :
    scanToken source s1 = some (createToken TOKEN_EOF s1, s1) := by
  have hsk : skipWhitespace source s1 = some s1 := by
    unfold skipWhitespace
    rw [skipWhitespaceLoop]
    simp only [peek, h0]
    rw [if_neg (by decide), if_neg (by decide), if_neg (by decide)]
  have hs : ({ s1 with start := s1.current } : Scanner) = s1 := by
    cases s1
    simp only at hst
    simp [hst]
  have he : isAtEnd source s1 = true := (isAtEnd_eq_true source s1).2 h0
  simp only [scanToken, hsk, hs, he, if_true]

theorem scanCalls_at_eof {source : List Char} {s1 : Scanner}
    (h0 : charAt source s1.current = NUL) (hst : s1.start = s1.current) (k : Nat) :
    scanCalls source k s1 = some (createToken TOKEN_EOF s1, s1) := by
  induction k with
  | zero => exact scanToken_at_eof h0 hst
  | succ k ih =>
    rw [scanCalls, scanToken_at_eof h0 hst]
    exact ih

theorem scanCalls_reaches_eof (source : List Char) (m : Nat) (s : Scanner)
    (hm : source.length - s.current ≤ m) :
    ∃ k, k ≤ m ∧ ∃ tok s1, scanCalls source k s = some (tok, s1) ∧ tok.token = TOKEN_EOF := by
  induction m generalizing s with
  | zero =>
    obtain ⟨⟨tok, s1⟩, hr⟩ := scanToken_returns source s
    by_cases he : tok.token = TOKEN_EOF
    · exact ⟨0, Nat.le_refl _, tok, s1, hr, he⟩
    · have := scanToken_not_eof hr he
      omega
  | succ m ih =>
    obtain ⟨⟨tok, s1⟩, hr⟩ := scanToken_returns source s
    by_cases he : tok.token = TOKEN_EOF
    · exact ⟨0, Nat.zero_le _, tok, s1, hr, he⟩
    · have hlt := scanToken_not_eof hr he
      obtain ⟨k, hk, tok2, s2, h2, he2⟩ := ih s1 (by omega)
      refine ⟨k + 1, by omega, tok2, s2, ?_, he2⟩
      rw [scanCalls, hr]
      exact h2

theorem lexLoop_returns (source : List Char) (fuel : Nat) (s : Scanner)
    (hfuel : source.length - s.current < fuel) :
    ∃ toks, lexLoop source fuel s = some toks ∧
      toks.length ≤ source.length - s.current + 1 ∧
      ∃ last, toks.getLast? = some last ∧ last.token = TOKEN_EOF := by
  induction fuel generalizing s with
  | zero => exact absurd hfuel (Nat.not_lt_zero _)
  | succ fuel ih =>
    obtain ⟨⟨tok, s1⟩, hr⟩ := scanToken_returns source s
    by_cases he : tok.token = TOKEN_EOF
    · refine ⟨[tok], ?_, by simp, tok, rfl, he⟩
      rw [lexLoop, hr]
      simp [he]
    · have hlt := scanToken_not_eof hr he
      obtain ⟨toks, h2, hlen, last, hlast, hl⟩ := ih s1 (by omega)
      refine ⟨tok :: toks, ?_, by simp only [List.length_cons]; omega, last, ?_, hl⟩
      · rw [lexLoop, hr]
        simp [he, h2]
      · cases toks with
        | nil => simp at hlast
        | cons a l => simpa [List.getLast?_cons_cons] using hlast

/-- The lexing loop of `runFile` ends: `source.length + 1` calls of `scanToken`
are enough to reach `TOKEN_EOF`. -/
theorem runFile_returns (source : List Char) :
    ∃ toks, runFile source = some toks ∧ toks.length ≤ source.length + 1 ∧
      ∃ last, toks.getLast? = some last ∧ last.token = TOKEN_EOF := by
  obtain ⟨toks, h, hlen, hl⟩ :=
    lexLoop_returns source (source.length + 1) (initScanner source)
      (by simp only [initScanner]; omega)
  exact ⟨toks, h, by simp only [initScanner] at hlen; omega, hl⟩

/-! ## Whitespace and comments -/

theorem charAt_of_drop_cons {source rest : List Char} {k : Nat} {c : Char}
    (h : source.drop k = c :: rest) : charAt source k = c := by
  have h2 : (source.drop k)[0]? = some c := by rw [h]; simp
  rw [List.getElem?_drop] at h2
  simp only [Nat.add_zero] at h2
  simp [charAt, List.getD_eq_getElem?_getD, h2]

theorem charAt_of_drop_nil {source : List Char} {k : Nat}
    (h : source.drop k = []) : charAt source k = NUL := by
  have hle : source.length ≤ k := List.drop_eq_nil_iff.1 h
  exact List.getD_eq_default _ _ hle

theorem drop_succ_of_drop_cons {source rest : List Char} {k : Nat} {c : Char}
    (h : source.drop k = c :: rest) : source.drop (k + 1) = rest := by
  have h2 : (source.drop k).drop 1 = rest := by rw [h]; rfl
  rw [List.drop_drop] at h2
  simpa [Nat.add_comm] using h2

theorem peekNext_of_ne (source : List Char) (s : Scanner)
    (h : charAt source s.current ≠ NUL) :
    peekNext source s = charAt source (s.current + 1) := by
  unfold peekNext
  rw [if_neg (fun hh => h hh.1)]

theorem skipWhitespaceLoop_space (source : List Char) (fuel : Nat) (s : Scanner)
    (h : charAt source s.current = ' ' ∨ charAt source s.current = '\t' ∨
      charAt source s.current = '\r') :
    skipWhitespaceLoop source (fuel + 1) s =
      skipWhitespaceLoop source fuel { s with current := s.current + 1 } := by
  have h0 : charAt source s.current ≠ NUL := by
    rcases h with h | h | h <;> rw [h] <;> decide
  rw [skipWhitespaceLoop]
  simp only [peek]
  rw [if_pos h, advance_of_ne source s h0]

theorem skipWhitespaceLoop_newline (source : List Char) (fuel : Nat) (s : Scanner)
    (h : charAt source s.current = '\n') :
    skipWhitespaceLoop source (fuel + 1) s =
      skipWhitespaceLoop source fuel
        { s with line := intIncr s.line, current := s.current + 1 } := by
  have h0 : charAt source s.current ≠ NUL := by rw [h]; decide
  rw [skipWhitespaceLoop]
  simp only [peek]
  rw [if_neg (by rw [h]; decide), if_pos h,
    advance_of_ne source { s with line := intIncr s.line } h0]

theorem skipWhitespaceLoop_comment (source : List Char) (fuel : Nat) (s t : Scanner)
    (h1 : charAt source s.current = '/') (h2 : charAt source (s.current + 1) = '/')
    (ht : skipCommentLoop source (source.length + 1) s = some t) :
    skipWhitespaceLoop source (fuel + 1) s = skipWhitespaceLoop source fuel t := by
  have h0 : charAt source s.current ≠ NUL := by rw [h1]; decide
  rw [skipWhitespaceLoop]
  simp only [peek]
  rw [if_neg (by rw [h1]; decide), if_neg (by rw [h1]; decide), if_pos h1,
    if_pos (by rw [peekNext_of_ne source s h0]; exact h2), ht]

theorem skipWhitespaceLoop_stop (source : List Char) (fuel : Nat) (s : Scanner)
    (hb : charAt source s.current ∉ blankChars)
    (hc : charAt source s.current ≠ '/' ∨ peekNext source s ≠ '/') :
    skipWhitespaceLoop source (fuel + 1) s = some s := by
  simp only [blankChars, List.mem_cons, List.mem_singleton, List.not_mem_nil, or_false,
    not_or] at hb
  obtain ⟨b1, b2, b3, b4⟩ := hb
  rw [skipWhitespaceLoop]
  simp only [peek]
  rw [if_neg (by rintro (h | h | h) <;> contradiction), if_neg b4]
  by_cases h : charAt source s.current = '/'
  · rw [if_pos h, if_neg (hc.resolve_left (fun hh => hh h))]
  · rw [if_neg h]

theorem skipCommentLoop_body (body : List Char) (h0 : NUL ∉ body) (hn : '\n' ∉ body) :
    ∀ (source tail : List Char) (fuel : Nat) (s : Scanner),
      source.drop s.current = body ++ tail →
      (tail = [] ∨ ∃ t, tail = '\n' :: t) →
      body.length < fuel →
      skipCommentLoop source fuel s =
        some { s with current := s.current + body.length } := by
  induction body with
  | nil =>
    intro source tail fuel s hd ht hf
    obtain ⟨f, rfl⟩ : ∃ f, fuel = f + 1 := ⟨fuel - 1, by simp at hf; omega⟩
    have hstop : charAt source s.current = NUL ∨ charAt source s.current = '\n' := by
      rcases ht with rfl | ⟨t, rfl⟩
      · exact Or.inl (charAt_of_drop_nil (by simpa using hd))
      · exact Or.inr (charAt_of_drop_cons (by simpa using hd))
    rw [skipCommentLoop_stop source f s hstop]
    simp
  | cons c body ih =>
    intro source tail fuel s hd ht hf
    obtain ⟨f, rfl⟩ : ∃ f, fuel = f + 1 := ⟨fuel - 1, by simp at hf; omega⟩
    have hd2 : source.drop s.current = c :: (body ++ tail) := by simpa using hd
    have hc : charAt source s.current = c := charAt_of_drop_cons hd2
    have hc0 : c ≠ NUL := fun e => h0 (by rw [← e]; exact List.mem_cons_self _ _)
    have hcn : c ≠ '\n' := fun e => hn (by rw [← e]; exact List.mem_cons_self _ _)
    rw [skipCommentLoop_step source f s (by rw [hc]; exact hc0) (by rw [hc]; exact hcn)]
    rw [ih (fun m => h0 (List.mem_cons_of_mem _ m)) (fun m => hn (List.mem_cons_of_mem _ m))
      source tail f { s with current := s.current + 1 } (drop_succ_of_drop_cons hd2) ht
      (by simp only [List.length_cons] at hf; omega)]
    simp only [List.length_cons, Option.some.injEq, Scanner.mk.injEq, true_and, and_true]
    omega

theorem drop_add_of_drop {source a b : List Char} {k : Nat}
    (h : source.drop k = a ++ b) : source.drop (k + a.length) = b := by
  have h2 : (source.drop k).drop a.length = b := by rw [h]; simp
  rw [List.drop_drop] at h2
  simpa [Nat.add_comm] using h2

theorem skipWhitespaceLoop_blank (rest : List Char) (hb : Blank rest) :
    NUL ∉ rest → ∀ (source : List Char) (fuel : Nat) (s : Scanner),
      source.drop s.current = rest → rest.length < fuel →
      ∃ t, skipWhitespaceLoop source fuel s = some t ∧
        t.current = s.current + rest.length ∧ t.start = s.start := by
  induction hb with
  | done =>
    intro _ source fuel s hd hf
    obtain ⟨f, rfl⟩ : ∃ f, fuel = f + 1 := ⟨fuel - 1, by simp at hf; omega⟩
    have h := charAt_of_drop_nil hd
    exact ⟨s, skipWhitespaceLoop_stop source f s (by rw [h]; decide)
      (Or.inl (by rw [h]; decide)), rfl, rfl⟩
  | space c rest hc _ ih =>
    intro h0 source fuel s hd hf
    obtain ⟨f, rfl⟩ : ∃ f, fuel = f + 1 := ⟨fuel - 1, by simp at hf; omega⟩
    have hch := charAt_of_drop_cons hd
    have hd1 := drop_succ_of_drop_cons hd
    have h0r : NUL ∉ rest := fun m => h0 (List.mem_cons_of_mem _ m)
    have hf1 : rest.length < f := by simp only [List.length_cons] at hf; omega
    simp only [blankChars, List.mem_cons, List.mem_singleton, List.not_mem_nil,
      or_false] at hc
    by_cases hnl : c = '\n'
    · subst hnl
      obtain ⟨t, ht, hcur, hst⟩ :=
        ih h0r source f { s with line := intIncr s.line, current := s.current + 1 } hd1 hf1
      refine ⟨t, by rw [skipWhitespaceLoop_newline source f s hch]; exact ht, ?_, hst⟩
      simp only [List.length_cons] at hcur ⊢
      omega
    · have hsp : c = ' ' ∨ c = '\t' ∨ c = '\r' := by
        rcases hc with h | h | h | h
        · exact Or.inl h
        · exact Or.inr (Or.inl h)
        · exact Or.inr (Or.inr h)
        · exact absurd h hnl
      obtain ⟨t, ht, hcur, hst⟩ :=
        ih h0r source f { s with current := s.current + 1 } hd1 hf1
      refine ⟨t, ?_, ?_, hst⟩
      · rw [skipWhitespaceLoop_space source f s (by rw [hch]; exact hsp)]
        exact ht
      · simp only [List.length_cons] at hcur ⊢
        omega
  | lastComment body hn =>
    intro h0 source fuel s hd hf
    obtain ⟨f, rfl⟩ : ∃ f, fuel = f + 2 :=
      ⟨fuel - 2, by simp only [List.length_cons] at hf; omega⟩
    have h1 := charAt_of_drop_cons hd
    have h2 := charAt_of_drop_cons (drop_succ_of_drop_cons hd)
    have hn2 : '\n' ∉ '/' :: '/' :: body := by
      simp only [List.mem_cons, not_or]
      exact ⟨by decide, by decide, hn⟩
    have hlen : ('/' :: '/' :: body).length < source.length + 1 := by
      have := congrArg List.length hd
      simp only [List.length_drop] at this
      omega
    have hd2 : source.drop s.current = ('/' :: '/' :: body) ++ [] := by simpa using hd
    have hcom := skipCommentLoop_body _ h0 hn2 source [] (source.length + 1) s hd2
      (Or.inl rfl) hlen
    have hend : charAt source (s.current + ('/' :: '/' :: body).length) = NUL :=
      charAt_of_drop_nil (drop_add_of_drop hd2)
    refine ⟨{ s with current := s.current + ('/' :: '/' :: body).length }, ?_, rfl, rfl⟩
    rw [skipWhitespaceLoop_comment source (f + 1) s _ h1 h2 hcom,
      skipWhitespaceLoop_stop source f _ (by simp only [hend]; decide)
        (Or.inl (by simp only [hend]; decide))]
  | comment body rest hn _ ih =>
    intro h0 source fuel s hd hf
    obtain ⟨f, rfl⟩ : ∃ f, fuel = f + 2 :=
      ⟨fuel - 2, by simp only [List.length_cons] at hf; omega⟩
    have h1 := charAt_of_drop_cons hd
    have h2 := charAt_of_drop_cons (drop_succ_of_drop_cons hd)
    have hn2 : '\n' ∉ '/' :: '/' :: body := by
      simp only [List.mem_cons, not_or]
      exact ⟨by decide, by decide, hn⟩
    have h02 : NUL ∉ '/' :: '/' :: body := by
      intro m
      apply h0
      simp only [List.mem_cons, List.mem_append] at m ⊢
      tauto
    have h0r : NUL ∉ rest := by
      intro m
      apply h0
      simp only [List.mem_cons, List.mem_append]
      tauto
    have hlen : ('/' :: '/' :: body).length < source.length + 1 := by
      have := congrArg List.length hd
      simp only [List.length_drop, List.length_cons, List.length_append] at this ⊢
      omega
    have hd2 : source.drop s.current = ('/' :: '/' :: body) ++ ('\n' :: rest) := by
      simpa using hd
    have hcom := skipCommentLoop_body _ h02 hn2 source ('\n' :: rest) (source.length + 1) s
      hd2 (Or.inr ⟨rest, rfl⟩) hlen
    have hd3 := drop_add_of_drop hd2
    have hnl := charAt_of_drop_cons hd3
    have hd4 := drop_succ_of_drop_cons hd3
    have hf1 : rest.length < f := by
      simp only [List.length_cons, List.length_append] at hf
      omega
    obtain ⟨t, ht, hcur, hst⟩ := ih h0r source f
      ⟨s.start, s.current + ('/' :: '/' :: body).length + 1, intIncr s.line⟩ hd4 hf1
    refine ⟨t, ?_, ?_, hst⟩
    · rw [skipWhitespaceLoop_comment source (f + 1) s _ h1 h2 hcom,
        skipWhitespaceLoop_newline source f _ hnl]
      exact ht
    · simp only [List.length_cons, List.length_append] at hcur ⊢
      omega

/-! ## Characters without a `case` label -/

theorem switchChar_default (source : List Char) (c : Char) (s : Scanner)
    (hl : c ∉ switchLabels) : switchChar source c s = caseDefault s := by
  simp only [switchLabels, List.mem_cons, List.mem_singleton, List.not_mem_nil, or_false,
    not_or] at hl
  unfold switchChar
  simp only [hl, if_false]

theorem scanToken_unexpected (source : List Char) (s : Scanner)
    (hws : charAt source s.current ∉ blankChars) (h0 : charAt source s.current ≠ NUL)
    (hl : charAt source s.current ∉ switchLabels) :
    scanToken source s =
      some (errorToken "Unexpected character." ⟨s.current, s.current + 1, s.line⟩,
        ⟨s.current, s.current + 1, s.line⟩) := by
  have hne : charAt source s.current ≠ '/' := by
    intro e
    apply hl
    rw [e]
    decide
  have hsk : skipWhitespace source s = some s :=
    skipWhitespaceLoop_stop source source.length s hws (Or.inl hne)
  have he : isAtEnd source { s with start := s.current } = false :=
    (isAtEnd_eq_false source _).2 h0
  have ha := advance_of_ne source { s with start := s.current } h0
  simp only [scanToken, hsk, he, ha]
  rw [switchChar_default source _ _ hl]
  rfl

/-! ## Single calls of `match` and single labels -/

theorem matchChar_of_ne (source : List Char) (expected : Char) (s : Scanner)
    (h : charAt source s.current ≠ expected) :
    matchChar source expected s = (false, s) := by
  unfold matchChar
  split_ifs
  · rfl
  · rfl

theorem matchChar_of_eq (source : List Char) (expected : Char) (s : Scanner)
    (h : charAt source s.current = expected) (h0 : expected ≠ NUL) :
    matchChar source expected s = (true, { s with current := s.current + 1 }) := by
  unfold matchChar
  rw [(isAtEnd_eq_false source s).2 (by rw [h]; exact h0)]
  simp [h]

theorem switchChar_equal (source : List Char) (s : Scanner) :
    switchChar source '=' s = returnMatch source '=' TOKEN_EQUAL_EQUAL TOKEN_EQUAL s := by
  unfold switchChar
  rw [if_neg (by decide), if_neg (by decide), if_neg (by decide), if_neg (by decide),
    if_pos rfl]

theorem scanToken_on_char (source : List Char) (s : Scanner)
    (hb : charAt source s.current ∉ blankChars) (h0 : charAt source s.current ≠ NUL)
    (hc : charAt source s.current ≠ '/' ∨ peekNext source s ≠ '/') :
    scanToken source s =
      some (switchChar source (charAt source s.current)
        ⟨s.current, s.current + 1, s.line⟩) := by
  have hsk : skipWhitespace source s = some s :=
    skipWhitespaceLoop_stop source source.length s hb hc
  have he : isAtEnd source { s with start := s.current } = false :=
    (isAtEnd_eq_false source _).2 h0
  have ha := advance_of_ne source { s with start := s.current } h0
  simp only [scanToken, hsk, he, ha]
  rfl

/-! ## The cursor invariant -/

theorem CursorInv.of_moved {source : List Char} {s t : Scanner}
    (hi : CursorInv source s) (hm : Moved source s t) : CursorInv source t := by
  obtain ⟨a, _, c, d⟩ := hm
  exact ⟨by rw [a]; exact Nat.le_trans hi.1 c, d hi.2⟩

theorem CursorInv.of_skipped {source : List Char} {s t : Scanner}
    (hi : CursorInv source s) (hm : Skipped source s t) : CursorInv source t := by
  obtain ⟨a, _, c, d⟩ := hm
  exact ⟨by rw [a]; exact Nat.le_trans hi.1 c, d hi.2⟩

theorem scanToken_cursor (source : List Char) (s : Scanner)
    (hi : s.current ≤ source.length) :
    ∃ tok t, scanToken source s = some (tok, t) ∧ CursorInv source t ∧
      s.current ≤ t.current := by
  obtain ⟨t, _, hs, ⟨_, hr⟩ | ⟨h0, hr⟩⟩ := scanToken_cases source s
  · exact ⟨_, _, hr, ⟨Nat.le_refl _, hs.2.2.2 hi⟩, hs.2.2.1⟩
  · have hret : Returned source ⟨t.current, t.current + 1, t.line⟩
        (switchChar source (charAt source t.current) ⟨t.current, t.current + 1, t.line⟩) :=
      switchChar_returned _ (Moved.refl source _)
    have hlt := charAt_lt source t.current h0
    obtain ⟨r, hreq⟩ : ∃ r, r = switchChar source (charAt source t.current)
        ⟨t.current, t.current + 1, t.line⟩ := ⟨_, rfl⟩
    rw [← hreq] at hr hret
    obtain ⟨⟨a, _, c, d⟩, _, _⟩ := hret
    have hc := hs.2.2.1
    have a1 : r.2.start = t.current := a
    have c1 : t.current + 1 ≤ r.2.current := c
    have d1 : r.2.current ≤ source.length := d hlt
    exact ⟨r.1, r.2, hr, ⟨by omega, d1⟩, by omega⟩

/-! ## Newlines and the line counter -/

theorem newlinesBefore_succ (source : List Char) (i : Nat) :
    newlinesBefore source (i + 1) =
      newlinesBefore source i + (if charAt source i = '\n' then 1 else 0) := by
  unfold newlinesBefore charAt
  rw [List.take_succ, List.count_append, List.getD_eq_getElem?_getD]
  cases h : source[i]? with
  | none =>
    have hne : NUL ≠ '\n' := by decide
    simp [hne]
  | some c =>
    by_cases hc : c = '\n'
    · simp [hc]
    · have hcount : List.count '\n' [c] = 0 :=
        List.count_eq_zero_of_not_mem (by simpa using fun e : '\n' = c => hc e.symm)
      simp [hc, hcount]

theorem Plain.self (source : List Char) (a : Nat) : Plain source a a :=
  fun _ h1 h2 => absurd (Nat.lt_of_le_of_lt h1 h2) (Nat.lt_irrefl _)

theorem Plain.join {source : List Char} {a b c : Nat}
    (h1 : Plain source a b) (h2 : Plain source b c) : Plain source a c := by
  intro i hi hc
  by_cases hb : i < b
  · exact h1 i hi hb
  · exact h2 i (Nat.le_of_not_lt hb) hc

theorem Plain.step {source : List Char} {a b : Nat}
    (h1 : Plain source a b) (h2 : charAt source b ≠ '\n') : Plain source a (b + 1) := by
  intro i hi hc
  by_cases hb : i < b
  · exact h1 i hi hb
  · have : i = b := by omega
    rw [this]
    exact h2

theorem Plain.newlinesBefore_eq {source : List Char} {a : Nat} :
    ∀ {b : Nat}, Plain source a b → a ≤ b →
      newlinesBefore source b = newlinesBefore source a := by
  intro b
  induction b with
  | zero =>
    intro _ hle
    have : a = 0 := by omega
    rw [this]
  | succ b ih =>
    intro hp hle
    by_cases hab : a = b + 1
    · rw [hab]
    · have hp' : Plain source a b := fun i h1 h2 => hp i h1 (by omega)
      rw [newlinesBefore_succ, if_neg (hp b (by omega) (by omega)), ih hp' (by omega)]
      rfl

theorem advance_plain {source : List Char} {a : Nat} (s : Scanner)
    (hp : Plain source a s.current) (hc : charAt source s.current ≠ '\n') :
    Plain source a (advance source s).2.current := by
  by_cases h : charAt source s.current = NUL
  · rw [advance_of_eq source s h]
    exact hp
  · rw [advance_of_ne source s h]
    exact hp.step hc

theorem matchChar_plain {source : List Char} {a : Nat} (expected : Char) (s : Scanner)
    (hp : Plain source a s.current) (he : expected ≠ '\n') :
    Plain source a (matchChar source expected s).2.current := by
  unfold matchChar
  split_ifs with h1 h2
  · exact hp
  · exact hp
  · have hc : charAt source s.current = expected := by
      by_contra hne
      exact h2 hne
    exact hp.step (by rw [hc]; exact he)

theorem createToken_kept {source : List Char} {a : Nat} {s : Scanner} (k : TokenType)
    (hp : Plain source a s.current) : Kept source a (createToken k s, s) :=
  ⟨hp, Or.inr ⟨k, rfl⟩⟩

theorem caseDefault_kept {source : List Char} {a : Nat} {s : Scanner}
    (hp : Plain source a s.current) : Kept source a (caseDefault s) :=
  ⟨hp, Or.inl rfl⟩

theorem caseF_kept {source : List Char} {a : Nat} {s : Scanner}
    (hp : Plain source a s.current) : Kept source a (caseF source s) := by
  unfold caseF
  simp only []
  split_ifs with h1 h2 h3 h4
  · have p1 := advance_plain s hp (by rw [show charAt source s.current = '3' from h1]; decide)
    exact createToken_kept _ (advance_plain _ p1
      (by rw [show charAt source (advance source s).2.current = '2' from h2]; decide))
  · exact caseDefault_kept
      (advance_plain s hp (by rw [show charAt source s.current = '3' from h1]; decide))
  · have p1 := advance_plain s hp (by rw [show charAt source s.current = '6' from h3]; decide)
    exact createToken_kept _ (advance_plain _ p1
      (by rw [show charAt source (advance source s).2.current = '4' from h4]; decide))
  · exact caseDefault_kept
      (advance_plain s hp (by rw [show charAt source s.current = '6' from h3]; decide))
  · exact caseDefault_kept hp

theorem caseU_kept {source : List Char} {a : Nat} {s : Scanner}
    (hp : Plain source a s.current) : Kept source a (caseU source s) := by
  unfold caseU
  simp only []
  split_ifs with h1 h2 h3 h4 h5 h6 h7
  · exact createToken_kept _
      (advance_plain s hp (by rw [show charAt source s.current = '8' from h1]; decide))
  · have p1 := advance_plain s hp (by rw [show charAt source s.current = '1' from h2]; decide)
    exact createToken_kept _ (advance_plain _ p1
      (by rw [show charAt source (advance source s).2.current = '6' from h3]; decide))
  · exact caseF_kept
      (advance_plain s hp (by rw [show charAt source s.current = '1' from h2]; decide))
  · have p1 := advance_plain s hp (by rw [show charAt source s.current = '3' from h4]; decide)
    exact createToken_kept _ (advance_plain _ p1
      (by rw [show charAt source (advance source s).2.current = '2' from h5]; decide))
  · exact caseF_kept
      (advance_plain s hp (by rw [show charAt source s.current = '3' from h4]; decide))
  · have p1 := advance_plain s hp (by rw [show charAt source s.current = '6' from h6]; decide)
    exact createToken_kept _ (advance_plain _ p1
      (by rw [show charAt source (advance source s).2.current = '4' from h7]; decide))
  · exact caseF_kept
      (advance_plain s hp (by rw [show charAt source s.current = '6' from h6]; decide))
  · exact caseF_kept hp

theorem caseI_kept {source : List Char} {a : Nat} {s : Scanner}
    (hp : Plain source a s.current) : Kept source a (caseI source s) := by
  unfold caseI
  simp only []
  split_ifs with h1 h2 h3 h4 h5 h6 h7
  · exact createToken_kept _
      (advance_plain s hp (by rw [show charAt source s.current = '8' from h1]; decide))
  · have p1 := advance_plain s hp (by rw [show charAt source s.current = '1' from h2]; decide)
    exact createToken_kept _ (advance_plain _ p1
      (by rw [show charAt source (advance source s).2.current = '6' from h3]; decide))
  · exact caseU_kept
      (advance_plain s hp (by rw [show charAt source s.current = '1' from h2]; decide))
  · have p1 := advance_plain s hp (by rw [show charAt source s.current = '3' from h4]; decide)
    exact createToken_kept _ (advance_plain _ p1
      (by rw [show charAt source (advance source s).2.current = '2' from h5]; decide))
  · exact caseU_kept
      (advance_plain s hp (by rw [show charAt source s.current = '3' from h4]; decide))
  · exact createToken_kept _
      (advance_plain s hp (by rw [show charAt source s.current = '6' from h6]; decide))
  · exact caseU_kept
      (advance_plain s hp (by rw [show charAt source s.current = '6' from h6]; decide))
  · exact caseU_kept hp

theorem casePercent_kept {source : List Char} {a : Nat} {s : Scanner}
    (hp : Plain source a s.current) : Kept source a (casePercent source s) :=
  caseI_kept (matchChar_plain '=' s hp (by decide))

theorem caseSlash_kept {source : List Char} {a : Nat} {s : Scanner}
    (hp : Plain source a s.current) : Kept source a (caseSlash source s) :=
  casePercent_kept (matchChar_plain '=' s hp (by decide))

theorem returnMatch_kept {source : List Char} {a : Nat} {s : Scanner} (expected : Char)
    (x y : TokenType) (hp : Plain source a s.current) (he : expected ≠ '\n') :
    Kept source a (returnMatch source expected x y s) :=
  createToken_kept _ (matchChar_plain expected s hp he)

theorem ite_kept {source : List Char} {a : Nat} {p : Prop} [Decidable p]
    {x y : Token × Scanner} (hx : Kept source a x) (hy : Kept source a y) :
    Kept source a (if p then x else y) := by
  split_ifs
  · exact hx
  · exact hy

theorem switchChar_kept {source : List Char} {a : Nat} {s : Scanner} (c : Char)
    (hp : Plain source a s.current) : Kept source a (switchChar source c s) := by
  unfold switchChar
  repeat' with_reducible apply ite_kept
  all_goals with_reducible first
    | exact createToken_kept _ hp
    | exact returnMatch_kept _ _ _ hp (by decide)
    | exact caseSlash_kept hp
    | exact casePercent_kept hp
    | exact caseI_kept hp
    | exact caseU_kept hp
    | exact caseF_kept hp
    | exact caseDefault_kept hp

theorem skipCommentLoop_plain (source : List Char) (fuel : Nat) (s t : Scanner)
    (h : skipCommentLoop source fuel s = some t) : Plain source s.current t.current := by
  induction fuel generalizing s with
  | zero => simp [skipCommentLoop] at h
  | succ fuel ih =>
    by_cases hstop : charAt source s.current = NUL ∨ charAt source s.current = '\n'
    · rw [skipCommentLoop_stop source fuel s hstop] at h
      rw [← Option.some.inj h]
      exact Plain.self source _
    · have h0 : charAt source s.current ≠ NUL := fun e => hstop (Or.inl e)
      have hn : charAt source s.current ≠ '\n' := fun e => hstop (Or.inr e)
      rw [skipCommentLoop_step source fuel s h0 hn] at h
      exact ((Plain.self source s.current).step hn).join (ih _ h)

theorem LineInv.plain_step {source : List Char} {s : Scanner} (hi : LineInv source s)
    (hn : charAt source s.current ≠ '\n') :
    LineInv source { s with current := s.current + 1 } := by
  unfold LineInv at hi ⊢
  simp only
  rw [newlinesBefore_succ, if_neg hn, hi]
  rfl

theorem LineInv.newline {source : List Char} {s : Scanner} (hi : LineInv source s)
    (hn : charAt source s.current = '\n') :
    LineInv source { s with line := intIncr s.line, current := s.current + 1 } := by
  unfold LineInv at hi ⊢
  simp only
  rw [newlinesBefore_succ, if_pos hn, hi, intIncr_wrapInt]
  push_cast
  rw [Int.add_assoc]

/-- The loop of `skipWhitespace` keeps the line counter in step with the
newlines passed and stops on a character that is neither whitespace nor the
start of a comment. -/
theorem skipWhitespaceLoop_line (source : List Char) (fuel : Nat) (s t : Scanner)
    (h : skipWhitespaceLoop source fuel s = some t) (hi : LineInv source s) :
    LineInv source t ∧ charAt source t.current ∉ blankChars ∧
      (charAt source t.current ≠ '/' ∨ peekNext source t ≠ '/') := by
  induction fuel generalizing s with
  | zero => simp [skipWhitespaceLoop] at h
  | succ fuel ih =>
    by_cases h1 : charAt source s.current = ' ' ∨ charAt source s.current = '\t' ∨
        charAt source s.current = '\r'
    · rw [skipWhitespaceLoop_space source fuel s h1] at h
      refine ih _ h (hi.plain_step ?_)
      rcases h1 with e | e | e <;> rw [e] <;> decide
    · by_cases h2 : charAt source s.current = '\n'
      · rw [skipWhitespaceLoop_newline source fuel s h2] at h
        exact ih _ h (hi.newline h2)
      · by_cases h3 : charAt source s.current = '/' ∧ peekNext source s = '/'
        · have h0 : charAt source s.current ≠ NUL := by rw [h3.1]; decide
          obtain ⟨t1, ht1, hm, _⟩ :=
            skipCommentLoop_returns source (source.length + 1) s (by omega)
          rw [skipWhitespaceLoop_comment source fuel s t1 h3.1
            (by rw [← peekNext_of_ne source s h0]; exact h3.2) ht1] at h
          have hp := skipCommentLoop_plain source _ s t1 ht1
          refine ih _ h ?_
          unfold LineInv at hi ⊢
          rw [hm.2.1, hi, hp.newlinesBefore_eq hm.2.2.1]
        · have hb : charAt source s.current ∉ blankChars := by
            simp only [blankChars, List.mem_cons, List.mem_singleton, List.not_mem_nil,
              or_false]
            tauto
          have hc : charAt source s.current ≠ '/' ∨ peekNext source s ≠ '/' := by
            by_cases e : charAt source s.current = '/'
            · exact Or.inr (fun e2 => h3 ⟨e, e2⟩)
            · exact Or.inl e
          rw [skipWhitespaceLoop_stop source fuel s hb hc] at h
          rw [← Option.some.inj h]
          exact ⟨hi, hb, hc⟩

/-- One call of `scanToken` from a scanner whose line counter is right: the
counter is right afterwards, the token carries it, it is the `int` held for 1
plus the newlines before `start`, no character from `start` to `current` is a
newline, and the token is the error token or the one `createToken` builds from
the scanner returned. -/
theorem scanToken_line {source : List Char} {s s1 : Scanner} {tok : Token}
    (hi : LineInv source s) (h : scanToken source s = some (tok, s1)) :
    LineInv source s1 ∧ tok.line = s1.line ∧
      tok.line = wrapInt (1 + newlinesBefore source s1.start) ∧
      Plain source s1.start s1.current ∧ s1.start ≤ s1.current ∧
      (tok = errorToken "Unexpected character." s1 ∨ ∃ k, tok = createToken k s1) := by
  obtain ⟨t, ht, _, ⟨_, hr⟩ | ⟨h0, hr⟩⟩ := scanToken_cases source s
  · obtain ⟨hit, _, _⟩ := skipWhitespaceLoop_line source _ s t ht hi
    rw [hr] at h
    have h1 := congrArg Prod.fst (Option.some.inj h)
    have h2 := congrArg Prod.snd (Option.some.inj h)
    simp only at h1 h2
    subst h2
    subst h1
    exact ⟨hit, rfl, hit, Plain.self source _, Nat.le_refl _, Or.inr ⟨_, rfl⟩⟩
  · obtain ⟨hit, hb, _⟩ := skipWhitespaceLoop_line source _ s t ht hi
    have hn : charAt source t.current ≠ '\n' := by
      intro e
      apply hb
      rw [e]
      decide
    have hp0 : Plain source t.current
        (⟨t.current, t.current + 1, t.line⟩ : Scanner).current :=
      (Plain.self source t.current).step hn
    have hret : Returned source ⟨t.current, t.current + 1, t.line⟩
        (switchChar source (charAt source t.current) ⟨t.current, t.current + 1, t.line⟩) :=
      switchChar_returned _ (Moved.refl source _)
    have hk := switchChar_kept (charAt source t.current) hp0
    rw [hr] at h
    rw [Option.some.inj h] at hret hk
    obtain ⟨⟨a, b, c, _⟩, _, e⟩ := hret
    have a1 : s1.start = t.current := a
    have b1 : s1.line = t.line := b
    have c1 : t.current + 1 ≤ s1.current := c
    have e1 : tok.line = t.line := e
    have hp : Plain source t.current s1.current := hk.1
    have hnb := hp.newlinesBefore_eq (by omega)
    unfold LineInv at hit ⊢
    refine ⟨by rw [b1, hit, hnb], by rw [e1, b1], by rw [e1, a1, hit], by rw [a1]; exact hp,
      by omega, hk.2⟩

theorem scanCalls_line {source : List Char} (k : Nat) {s s1 : Scanner} {tok : Token}
    (hi : LineInv source s) (h : scanCalls source k s = some (tok, s1)) :
    LineInv source s1 ∧ tok.line = s1.line ∧
      tok.line = wrapInt (1 + newlinesBefore source s1.start) ∧
      Plain source s1.start s1.current ∧ s1.start ≤ s1.current ∧
      (tok = errorToken "Unexpected character." s1 ∨ ∃ k, tok = createToken k s1) := by
  induction k generalizing s with
  | zero => exact scanToken_line hi h
  | succ k ih =>
    rw [scanCalls] at h
    obtain ⟨⟨tok0, s0⟩, hr⟩ := scanToken_returns source s
    rw [hr] at h
    exact ih (scanToken_line hi hr).1 h

theorem scanCalls_returns (source : List Char) (k : Nat) (s : Scanner) :
    ∃ r, scanCalls source k s = some r := by
  induction k generalizing s with
  | zero => exact scanToken_returns source s
  | succ k ih =>
    obtain ⟨r, hr⟩ := scanToken_returns source s
    rw [scanCalls, hr]
    exact ih r.2

theorem LineInv.init (source : List Char) : LineInv source (initScanner source) := by
  simp only [LineInv, initScanner, newlinesBefore, List.take_zero, List.count_nil]
  unfold wrapInt
  omega

/-! ## Scanning the same text at another offset -/

theorem ReadsAs.of_append (pre short : List Char) : ReadsAs (pre ++ short) short pre.length := by
  refine ⟨by simp, fun i => ?_⟩
  unfold charAt
  rw [List.getD_eq_getElem?_getD, List.getD_eq_getElem?_getD,
    List.getElem?_append_right (by omega)]
  simp

theorem isAtEnd_shift {long short : List Char} {d : Nat} (hr : ReadsAs long short d)
    (s s1 : Scanner) (hc : s1.current = s.current + d) :
    isAtEnd long s1 = isAtEnd short s := by
  unfold isAtEnd
  rw [hc, hr.2]

theorem advance_shift {long short : List Char} {d : Nat} (hr : ReadsAs long short d)
    (s : Scanner) :
    advance long (shift d s) = ((advance short s).1, shift d (advance short s).2) := by
  have hc : charAt long (shift d s).current = charAt short s.current := hr.2 s.current
  by_cases h : charAt short s.current = NUL
  · rw [advance_of_eq short s h, advance_of_eq long (shift d s) (by rw [hc]; exact h)]
  · rw [advance_of_ne short s h, advance_of_ne long (shift d s) (by rw [hc]; exact h), hc]
    simp only [shift, Prod.mk.injEq, Scanner.mk.injEq, true_and, and_true]
    omega

theorem peek_shift {long short : List Char} {d : Nat} (hr : ReadsAs long short d)
    (s : Scanner) : peek long (shift d s) = peek short s :=
  hr.2 s.current

theorem matchChar_shift {long short : List Char} {d : Nat} (hr : ReadsAs long short d)
    (expected : Char) (s : Scanner) :
    matchChar long expected (shift d s) =
      ((matchChar short expected s).1, shift d (matchChar short expected s).2) := by
  have hc : charAt long (shift d s).current = charAt short s.current := hr.2 s.current
  unfold matchChar
  rw [isAtEnd_shift hr s (shift d s) rfl, hc]
  split_ifs
  · rfl
  · rfl
  · simp only [shift, Prod.mk.injEq, Scanner.mk.injEq, true_and, and_true]
    omega

theorem createToken_shift (d : Nat) (k : TokenType) (s : Scanner) :
    createToken k (shift d s) = shiftToken d (createToken k s) := by
  simp only [createToken, shift, shiftToken, Token.mk.injEq, true_and, and_true]
  omega

theorem caseDefault_shift (d : Nat) (s : Scanner) :
    caseDefault (shift d s) = shiftResult d (caseDefault s) := rfl

theorem created_shift (d : Nat) (k : TokenType) (s : Scanner) :
    (createToken k (shift d s), shift d s) = shiftResult d (createToken k s, s) := by
  rw [createToken_shift]
  rfl

theorem caseF_shift {long short : List Char} {d : Nat} (hr : ReadsAs long short d)
    (s : Scanner) : caseF long (shift d s) = shiftResult d (caseF short s) := by
  unfold caseF
  simp only [peek_shift hr, advance_shift hr]
  split_ifs
  · exact created_shift d _ _
  · rfl
  · exact created_shift d _ _
  · rfl
  · rfl

theorem caseU_shift {long short : List Char} {d : Nat} (hr : ReadsAs long short d)
    (s : Scanner) : caseU long (shift d s) = shiftResult d (caseU short s) := by
  unfold caseU
  simp only [peek_shift hr, advance_shift hr, caseF_shift hr]
  split_ifs
  · exact created_shift d _ _
  · exact created_shift d _ _
  · rfl
  · exact created_shift d _ _
  · rfl
  · exact created_shift d _ _
  · rfl
  · rfl

theorem caseI_shift {long short : List Char} {d : Nat} (hr : ReadsAs long short d)
    (s : Scanner) : caseI long (shift d s) = shiftResult d (caseI short s) := by
  unfold caseI
  simp only [peek_shift hr, advance_shift hr, caseU_shift hr]
  split_ifs
  · exact created_shift d _ _
  · exact created_shift d _ _
  · rfl
  · exact created_shift d _ _
  · rfl
  · exact created_shift d _ _
  · rfl
  · rfl

theorem casePercent_shift {long short : List Char} {d : Nat} (hr : ReadsAs long short d)
    (s : Scanner) : casePercent long (shift d s) = shiftResult d (casePercent short s) := by
  unfold casePercent
  simp only [matchChar_shift hr, caseI_shift hr]

theorem caseSlash_shift {long short : List Char} {d : Nat} (hr : ReadsAs long short d)
    (s : Scanner) : caseSlash long (shift d s) = shiftResult d (caseSlash short s) := by
  unfold caseSlash
  simp only [matchChar_shift hr, casePercent_shift hr]

theorem returnMatch_shift {long short : List Char} {d : Nat} (hr : ReadsAs long short d)
    (expected : Char) (x y : TokenType) (s : Scanner) :
    returnMatch long expected x y (shift d s) =
      shiftResult d (returnMatch short expected x y s) := by
  unfold returnMatch
  simp only [matchChar_shift hr]
  exact created_shift d _ _

theorem ite_shift {d : Nat} {p : Prop} [Decidable p] {x y x1 y1 : Token × Scanner}
    (hx : x1 = shiftResult d x) (hy : y1 = shiftResult d y) :
    (if p then x1 else y1) = shiftResult d (if p then x else y) := by
  split_ifs
  · exact hx
  · exact hy

theorem switchChar_shift {long short : List Char} {d : Nat} (hr : ReadsAs long short d)
    (c : Char) (s : Scanner) :
    switchChar long c (shift d s) = shiftResult d (switchChar short c s) := by
  unfold switchChar
  repeat' with_reducible apply ite_shift
  all_goals with_reducible first
    | exact created_shift d _ _
    | exact returnMatch_shift hr _ _ _ _
    | exact caseSlash_shift hr _
    | exact casePercent_shift hr _
    | exact caseI_shift hr _
    | exact caseU_shift hr _
    | exact caseF_shift hr _
    | exact caseDefault_shift d _

/-! ## More fuel does not change a result -/

theorem skipCommentLoop_mono (source : List Char) (f f1 : Nat) (s t : Scanner)
    (h : skipCommentLoop source f s = some t) (hle : f ≤ f1) :
    skipCommentLoop source f1 s = some t := by
  induction f generalizing s f1 with
  | zero => simp [skipCommentLoop] at h
  | succ f ih =>
    obtain ⟨g, rfl⟩ : ∃ g, f1 = g + 1 := ⟨f1 - 1, by omega⟩
    by_cases hstop : charAt source s.current = NUL ∨ charAt source s.current = '\n'
    · rw [skipCommentLoop_stop source f s hstop] at h
      rw [skipCommentLoop_stop source g s hstop]
      exact h
    · have h0 : charAt source s.current ≠ NUL := fun e => hstop (Or.inl e)
      have hn : charAt source s.current ≠ '\n' := fun e => hstop (Or.inr e)
      rw [skipCommentLoop_step source f s h0 hn] at h
      rw [skipCommentLoop_step source g s h0 hn]
      exact ih g _ h (by omega)

/-- The four ways one iteration of the loop of `skipWhitespace` can go. -/
theorem skipWhitespaceLoop_iteration (source : List Char) (s : Scanner) :
    (∀ fuel, skipWhitespaceLoop source (fuel + 1) s =
        skipWhitespaceLoop source fuel { s with current := s.current + 1 }) ∧
      (charAt source s.current = ' ' ∨ charAt source s.current = '\t' ∨
        charAt source s.current = '\r') ∨
    (∀ fuel, skipWhitespaceLoop source (fuel + 1) s =
        skipWhitespaceLoop source fuel
          { s with line := intIncr s.line, current := s.current + 1 }) ∧
      charAt source s.current = '\n' ∨
    (∃ t, (∀ fuel, skipWhitespaceLoop source (fuel + 1) s =
        skipWhitespaceLoop source fuel t) ∧
      skipCommentLoop source (source.length + 1) s = some t ∧
      charAt source s.current = '/' ∧ charAt source (s.current + 1) = '/' ∧
      s.current < t.current) ∨
    ((∀ fuel, skipWhitespaceLoop source (fuel + 1) s = some s) ∧
      charAt source s.current ∉ blankChars ∧
      (charAt source s.current ≠ '/' ∨ charAt source (s.current + 1) ≠ '/')) := by
  by_cases h1 : charAt source s.current = ' ' ∨ charAt source s.current = '\t' ∨
      charAt source s.current = '\r'
  · exact Or.inl ⟨fun fuel => skipWhitespaceLoop_space source fuel s h1, h1⟩
  · by_cases h2 : charAt source s.current = '\n'
    · exact Or.inr (Or.inl ⟨fun fuel => skipWhitespaceLoop_newline source fuel s h2, h2⟩)
    · have hb : charAt source s.current ∉ blankChars := by
        simp only [blankChars, List.mem_cons, List.mem_singleton, List.not_mem_nil,
          or_false]
        tauto
      by_cases h3 : charAt source s.current = '/'
      · have h0 : charAt source s.current ≠ NUL := by rw [h3]; decide
        have hn : charAt source s.current ≠ '\n' := by rw [h3]; decide
        have hpn := peekNext_of_ne source s h0
        by_cases h4 : charAt source (s.current + 1) = '/'
        · obtain ⟨t, ht, _, hgt⟩ :=
            skipCommentLoop_returns source (source.length + 1) s (by omega)
          exact Or.inr (Or.inr (Or.inl ⟨t,
            fun fuel => skipWhitespaceLoop_comment source fuel s t h3 h4 ht,
            ht, h3, h4, hgt h0 hn⟩))
        · exact Or.inr (Or.inr (Or.inr
            ⟨fun fuel => skipWhitespaceLoop_stop source fuel s hb
              (Or.inr (by rw [hpn]; exact h4)), hb, Or.inr h4⟩))
      · exact Or.inr (Or.inr (Or.inr
          ⟨fun fuel => skipWhitespaceLoop_stop source fuel s hb (Or.inl h3), hb, Or.inl h3⟩))

theorem skipWhitespaceLoop_mono (source : List Char) (f f1 : Nat) (s t : Scanner)
    (h : skipWhitespaceLoop source f s = some t) (hle : f ≤ f1) :
    skipWhitespaceLoop source f1 s = some t := by
  induction f generalizing s f1 with
  | zero => simp [skipWhitespaceLoop] at h
  | succ f ih =>
    obtain ⟨g, rfl⟩ : ∃ g, f1 = g + 1 := ⟨f1 - 1, by omega⟩
    rcases skipWhitespaceLoop_iteration source s with
      ⟨e, _⟩ | ⟨e, _⟩ | ⟨t1, e, _⟩ | ⟨e, _⟩
    · rw [e] at h ⊢
      exact ih g _ h (by omega)
    · rw [e] at h ⊢
      exact ih g _ h (by omega)
    · rw [e] at h ⊢
      exact ih g _ h (by omega)
    · rw [e] at h ⊢
      exact h

theorem lexLoop_mono (source : List Char) (f f1 : Nat) (s : Scanner) (toks : List Token)
    (h : lexLoop source f s = some toks) (hle : f ≤ f1) :
    lexLoop source f1 s = some toks := by
  induction f generalizing s f1 toks with
  | zero => simp [lexLoop] at h
  | succ f ih =>
    obtain ⟨g, rfl⟩ : ∃ g, f1 = g + 1 := ⟨f1 - 1, by omega⟩
    obtain ⟨r, hr⟩ := scanToken_returns source s
    rw [lexLoop, hr] at h ⊢
    simp only at h ⊢
    by_cases he : r.1.token = TOKEN_EOF
    · rw [if_pos he] at h ⊢
      exact h
    · rw [if_neg he] at h ⊢
      cases hl : lexLoop source f r.2 with
      | none => rw [hl] at h; simp at h
      | some rest =>
        rw [hl] at h
        rw [ih g r.2 rest hl (by omega)]
        exact h

/-! ## The loops and `scanToken` at another offset -/

theorem skipCommentLoop_shift {long short : List Char} {d : Nat}
    (hr : ReadsAs long short d) (fuel : Nat) (s s1 : Scanner)
    (hc : s1.current = s.current + d) (hl : s1.line = s.line) :
    skipCommentLoop long fuel s1 =
      (skipCommentLoop short fuel s).map (fun t => ⟨s1.start, t.current + d, t.line⟩) := by
  induction fuel generalizing s s1 with
  | zero => rfl
  | succ fuel ih =>
    have hch : charAt long s1.current = charAt short s.current := by rw [hc]; exact hr.2 _
    by_cases hstop : charAt short s.current = NUL ∨ charAt short s.current = '\n'
    · rw [skipCommentLoop_stop short fuel s hstop,
        skipCommentLoop_stop long fuel s1 (by rw [hch]; exact hstop)]
      cases s1
      simp only at hc hl
      simp [hc, hl]
    · have h0 : charAt short s.current ≠ NUL := fun e => hstop (Or.inl e)
      have hn : charAt short s.current ≠ '\n' := fun e => hstop (Or.inr e)
      rw [skipCommentLoop_step short fuel s h0 hn,
        skipCommentLoop_step long fuel s1 (by rw [hch]; exact h0) (by rw [hch]; exact hn)]
      exact ih _ _ (by simp only; omega) hl

theorem skipWhitespaceLoop_shift {long short : List Char} {d : Nat}
    (hr : ReadsAs long short d) (fuel : Nat) (s s1 : Scanner)
    (hc : s1.current = s.current + d) (hl : s1.line = s.line) :
    skipWhitespaceLoop long fuel s1 =
      (skipWhitespaceLoop short fuel s).map
        (fun t => ⟨s1.start, t.current + d, t.line⟩) := by
  induction fuel generalizing s s1 with
  | zero => rfl
  | succ fuel ih =>
    have hch : charAt long s1.current = charAt short s.current := by rw [hc]; exact hr.2 _
    have hch1 : charAt long (s1.current + 1) = charAt short (s.current + 1) := by
      rw [hc, Nat.add_right_comm]
      exact hr.2 _
    rcases skipWhitespaceLoop_iteration short s with
      ⟨e, hsp⟩ | ⟨e, hnl⟩ | ⟨t, e, ht, h1, h2, _⟩ | ⟨e, hb, hcm⟩
    · rw [e, skipWhitespaceLoop_space long fuel s1 (by rw [hch]; exact hsp)]
      exact ih _ _ (by simp only; omega) hl
    · rw [e, skipWhitespaceLoop_newline long fuel s1 (by rw [hch]; exact hnl)]
      exact ih _ _ (by simp only; omega) (by simp only; rw [hl])
    · have hmono := skipCommentLoop_mono short _ (long.length + 1) s t ht
        (by have := hr.1; omega)
      have hlong : skipCommentLoop long (long.length + 1) s1 =
          some ⟨s1.start, t.current + d, t.line⟩ := by
        rw [skipCommentLoop_shift hr _ s s1 hc hl, hmono]
        rfl
      rw [e, skipWhitespaceLoop_comment long fuel s1 _ (by rw [hch]; exact h1)
        (by rw [hch1]; exact h2) hlong]
      exact ih t _ rfl rfl
    · have hpn : charAt long s1.current ≠ '/' ∨ peekNext long s1 ≠ '/' := by
        rcases hcm with h | h
        · exact Or.inl (by rw [hch]; exact h)
        · by_cases h0 : charAt long s1.current = NUL
          · exact Or.inl (by rw [h0]; decide)
          · exact Or.inr (by rw [peekNext_of_ne long s1 h0, hch1]; exact h)
      rw [e, skipWhitespaceLoop_stop long fuel s1 (by rw [hch]; exact hb) hpn]
      cases s1
      simp only at hc hl
      simp [hc, hl]

theorem skipWhitespace_shift {long short : List Char} {d : Nat}
    (hr : ReadsAs long short d) (s s1 : Scanner)
    (hc : s1.current = s.current + d) (hl : s1.line = s.line) :
    skipWhitespace long s1 =
      (skipWhitespace short s).map (fun t => ⟨s1.start, t.current + d, t.line⟩) := by
  obtain ⟨t, ht, _⟩ := skipWhitespace_returns short s
  have hmono := skipWhitespaceLoop_mono short _ (long.length + 1) s t ht
    (by have := hr.1; omega)
  rw [ht]
  unfold skipWhitespace
  rw [skipWhitespaceLoop_shift hr _ s s1 hc hl, hmono]

/-- If `skipWhitespace` stops at the same place of the common text in both
sources, on the same line, `scanToken` returns the same token, moved by `d`. -/
theorem scanToken_shift_of_skip {long short : List Char} {d : Nat}
    (hr : ReadsAs long short d) (s s1 : Scanner) (x : Nat)
    (hskip : skipWhitespace long s1 =
      (skipWhitespace short s).map (fun t => ⟨x, t.current + d, t.line⟩)) :
    scanToken long s1 = (scanToken short s).map (shiftResult d) := by
  obtain ⟨t, ht, _⟩ := skipWhitespace_returns short s
  rw [ht] at hskip
  have hskip1 : skipWhitespace long s1 = some ⟨x, t.current + d, t.line⟩ := hskip
  have hch : charAt long (t.current + d) = charAt short t.current := hr.2 _
  by_cases h : charAt short t.current = NUL
  · have he : isAtEnd short { t with start := t.current } = true :=
      (isAtEnd_eq_true short _).2 h
    have he1 : isAtEnd long ⟨t.current + d, t.current + d, t.line⟩ = true :=
      (isAtEnd_eq_true long _).2 (by rw [← h]; exact hch)
    simp only [scanToken, hskip1, ht, he, he1, if_true, Option.map_some']
    rw [Option.some.injEq]
    exact created_shift d TOKEN_EOF { t with start := t.current }
  · have he : isAtEnd short { t with start := t.current } = false :=
      (isAtEnd_eq_false short _).2 h
    have he1 : isAtEnd long ⟨t.current + d, t.current + d, t.line⟩ = false :=
      (isAtEnd_eq_false long _).2 (by rw [hch]; exact h)
    have ha := advance_shift hr { t with start := t.current }
    have hs : shift d { t with start := t.current } =
        ⟨t.current + d, t.current + d, t.line⟩ := rfl
    rw [hs] at ha
    simp only [scanToken, hskip1, ht, he, he1, ha, Option.map_some', Bool.false_eq_true,
      if_false]
    rw [Option.some.injEq]
    exact switchChar_shift hr _ _

theorem scanToken_shift {long short : List Char} {d : Nat}
    (hr : ReadsAs long short d) (s s1 : Scanner)
    (hc : s1.current = s.current + d) (hl : s1.line = s.line) :
    scanToken long s1 = (scanToken short s).map (shiftResult d) :=
  scanToken_shift_of_skip hr s s1 s1.start (skipWhitespace_shift hr s s1 hc hl)

theorem lexLoop_shift {long short : List Char} {d : Nat}
    (hr : ReadsAs long short d) (fuel : Nat) (s s1 : Scanner)
    (hc : s1.current = s.current + d) (hl : s1.line = s.line) :
    lexLoop long fuel s1 = (lexLoop short fuel s).map (List.map (shiftToken d)) := by
  induction fuel generalizing s s1 with
  | zero => rfl
  | succ fuel ih =>
    obtain ⟨r, hr1⟩ := scanToken_returns short s
    have h2 : scanToken long s1 = some (shiftResult d r) := by
      rw [scanToken_shift hr s s1 hc hl, hr1]
      rfl
    rw [lexLoop, lexLoop, hr1, h2]
    simp only
    have hk : (shiftResult d r).1.token = r.1.token := rfl
    rw [hk]
    by_cases he : r.1.token = TOKEN_EOF
    · rw [if_pos he, if_pos he]
      rfl
    · rw [if_neg he, if_neg he, ih r.2 (shiftResult d r).2 rfl rfl]
      cases lexLoop short fuel r.2 with
      | none => rfl
      | some rest => rfl

/-! ## Sources of whitespace and comments only -/

theorem newlinesBefore_length (source : List Char) :
    newlinesBefore source source.length = source.count '\n' := by
  unfold newlinesBefore
  rw [List.take_length]

/-- The first call on a source of whitespace and comments only: `TOKEN_EOF` at
the end of the source, its line the `int` held for 1 plus the number of
newlines. -/
theorem scanToken_blank (source : List Char) (hb : Blank source) (h0 : NUL ∉ source) :
    scanToken source (initScanner source) =
      some (⟨TOKEN_EOF, CharPtr.inSource source.length, 0,
          wrapInt (1 + source.count '\n')⟩,
        ⟨source.length, source.length, wrapInt (1 + source.count '\n')⟩) ∧
    runFile source =
      some [⟨TOKEN_EOF, CharPtr.inSource source.length, 0,
        wrapInt (1 + source.count '\n')⟩] := by
  obtain ⟨t, ht, hcur, _⟩ := skipWhitespaceLoop_blank source hb h0 source
    (source.length + 1) (initScanner source) rfl (by omega)
  have hcur1 : t.current = source.length := by
    rw [hcur]
    exact Nat.zero_add _
  have hline : t.line = wrapInt (1 + source.count '\n') := by
    have hi := (skipWhitespaceLoop_line source _ _ t ht (LineInv.init source)).1
    unfold LineInv at hi
    rw [hi, hcur1, newlinesBefore_length]
  have hsk : skipWhitespace source (initScanner source) = some t := ht
  have he : isAtEnd source { t with start := t.current } = true :=
    (isAtEnd_eq_true source _).2 (by rw [hcur1]; exact charAt_length source)
  have hscan : scanToken source (initScanner source) =
      some (⟨TOKEN_EOF, CharPtr.inSource source.length, 0,
          wrapInt (1 + source.count '\n')⟩,
        ⟨source.length, source.length, wrapInt (1 + source.count '\n')⟩) := by
    simp only [scanToken, hsk, he, if_true, createToken, Nat.sub_self]
    rw [hcur1, hline]
  refine ⟨hscan, ?_⟩
  unfold runFile
  rw [lexLoop, hscan]
  simp

theorem blank_replicate_newline (n : Nat) : Blank (List.replicate n '\n') := by
  induction n with
  | zero => exact Blank.done
  | succ n ih =>
    rw [List.replicate_succ]
    exact Blank.space '\n' _ (by decide) ih

theorem nul_not_mem_replicate_newline (n : Nat) : NUL ∉ List.replicate n '\n' := by
  intro h
  exact absurd (List.eq_of_mem_replicate h) (by decide)

/-- The first call on a source of `n` newlines: `TOKEN_EOF` at offset `n`, with
`n` newlines before it, on the line that is the `int` held for `1 + n`. -/
theorem scanToken_newlines (n : Nat) :
    scanToken (List.replicate n '\n') (initScanner (List.replicate n '\n')) =
      some (⟨TOKEN_EOF, CharPtr.inSource n, 0, wrapInt (1 + n)⟩,
        ⟨n, n, wrapInt (1 + n)⟩) ∧
    (List.replicate n '\n').count '\n' = n ∧
    newlinesBefore (List.replicate n '\n') n = n := by
  have h := (scanToken_blank _ (blank_replicate_newline n)
    (nul_not_mem_replicate_newline n)).1
  have hc : (List.replicate n '\n').count '\n' = n := List.count_replicate_self _ _
  have hn := newlinesBefore_length (List.replicate n '\n')
  rw [List.length_replicate, hc] at h hn
  exact ⟨h, hc, hn⟩

theorem wrapInt_int_max_succ : wrapInt (1 + ((2147483647 : Nat) : Int)) = -2147483648 := by
  unfold wrapInt
  omega

/-! ## A comment before the text -/

theorem shown_shiftToken (pre short : List Char) (tok : Token) :
    Token.shown (pre ++ short) (shiftToken pre.length tok) = Token.shown short tok := by
  cases tok with
  | mk kind start len line =>
    cases start with
    | inSource offset =>
      simp only [Token.shown, Token.lexeme, shiftToken, Nat.add_comm offset pre.length,
        ← List.drop_drop, List.drop_left]
    | inLiteral text => rfl

theorem runFile_shift_of_first (pre short : List Char)
    (hfirst : scanToken (pre ++ short) (initScanner (pre ++ short)) =
      (scanToken short (initScanner short)).map (shiftResult pre.length)) :
    ∃ toks, runFile short = some toks ∧
      runFile (pre ++ short) = some (toks.map (shiftToken pre.length)) := by
  have hr := ReadsAs.of_append pre short
  obtain ⟨r0, hr0⟩ := scanToken_returns short (initScanner short)
  rw [hr0] at hfirst
  have hfirst1 : scanToken (pre ++ short) (initScanner (pre ++ short)) =
      some (shiftResult pre.length r0) := hfirst
  have hk : (shiftResult pre.length r0).1.token = r0.1.token := rfl
  unfold runFile
  rw [lexLoop, lexLoop, hr0, hfirst1]
  simp only
  rw [hk]
  by_cases he : r0.1.token = TOKEN_EOF
  · rw [if_pos he, if_pos he]
    exact ⟨[r0.1], rfl, rfl⟩
  · rw [if_neg he, if_neg he]
    have hlt := scanToken_not_eof hr0 he
    obtain ⟨rest, hrest, _⟩ := lexLoop_returns short short.length r0.2 (by omega)
    have hmono := lexLoop_mono short _ (pre ++ short).length r0.2 rest hrest (by simp)
    rw [lexLoop_shift hr _ r0.2 (shiftResult pre.length r0).2 rfl rfl, hmono, hrest]
    exact ⟨r0.1 :: rest, rfl, rfl⟩

/-- The first call on a source that begins with a comment of body `b` followed
by a newline: the comment loop stops on the newline, and the call returns what
the first call on the text from that newline on returns, moved right by the
length of the comment. -/
theorem scanToken_after_comment (b r : List Char) (hn : '\n' ∉ b) (h0 : NUL ∉ b) :
    skipCommentLoop (('/' :: '/' :: b) ++ '\n' :: r)
        ((('/' :: '/' :: b) ++ '\n' :: r).length + 1)
        (initScanner (('/' :: '/' :: b) ++ '\n' :: r)) =
      some ⟨0, b.length + 2, 1⟩ ∧
    scanToken (('/' :: '/' :: b) ++ '\n' :: r)
        (initScanner (('/' :: '/' :: b) ++ '\n' :: r)) =
      (scanToken ('\n' :: r) (initScanner ('\n' :: r))).map
        (shiftResult ('/' :: '/' :: b).length) := by
  have hr := ReadsAs.of_append ('/' :: '/' :: b) ('\n' :: r)
  have hn2 : '\n' ∉ '/' :: '/' :: b := by
    simp only [List.mem_cons, not_or]
    exact ⟨by decide, by decide, hn⟩
  have h02 : NUL ∉ '/' :: '/' :: b := by
    simp only [List.mem_cons, not_or]
    exact ⟨by decide, by decide, h0⟩
  have hcom := skipCommentLoop_body _ h02 hn2 (('/' :: '/' :: b) ++ '\n' :: r) ('\n' :: r)
    ((('/' :: '/' :: b) ++ '\n' :: r).length + 1)
    (initScanner (('/' :: '/' :: b) ++ '\n' :: r)) rfl (Or.inr ⟨r, rfl⟩)
    (by simp only [List.length_append, List.length_cons]; omega)
  have hcom1 : skipCommentLoop (('/' :: '/' :: b) ++ '\n' :: r)
      ((('/' :: '/' :: b) ++ '\n' :: r).length + 1)
      (initScanner (('/' :: '/' :: b) ++ '\n' :: r)) =
        some ⟨0, 0 + ('/' :: '/' :: b).length, 1⟩ := hcom
  refine ⟨by rw [hcom1]; simp, ?_⟩
  obtain ⟨t, ht, _⟩ := skipWhitespace_returns ('\n' :: r) (initScanner ('\n' :: r))
  have hmono := skipWhitespaceLoop_mono ('\n' :: r) _
    (('/' :: '/' :: b) ++ '\n' :: r).length (initScanner ('\n' :: r)) t ht
    (by simp only [List.length_append, List.length_cons]; omega)
  have hskip : skipWhitespace (('/' :: '/' :: b) ++ '\n' :: r)
      (initScanner (('/' :: '/' :: b) ++ '\n' :: r)) =
      (skipWhitespace ('\n' :: r) (initScanner ('\n' :: r))).map
        (fun t => ⟨0, t.current + ('/' :: '/' :: b).length, t.line⟩) := by
    have h1 : charAt (('/' :: '/' :: b) ++ '\n' :: r)
        (initScanner (('/' :: '/' :: b) ++ '\n' :: r)).current = '/' := rfl
    have h2 : charAt (('/' :: '/' :: b) ++ '\n' :: r)
        ((initScanner (('/' :: '/' :: b) ++ '\n' :: r)).current + 1) = '/' := rfl
    have hstep := skipWhitespaceLoop_comment (('/' :: '/' :: b) ++ '\n' :: r)
      (('/' :: '/' :: b) ++ '\n' :: r).length
      (initScanner (('/' :: '/' :: b) ++ '\n' :: r)) _ h1 h2 hcom1
    have hsh := skipWhitespaceLoop_shift hr (('/' :: '/' :: b) ++ '\n' :: r).length
      (initScanner ('\n' :: r)) ⟨0, 0 + ('/' :: '/' :: b).length, 1⟩ rfl rfl
    rw [ht]
    unfold skipWhitespace
    rw [hstep, hsh, hmono]
  exact scanToken_shift_of_skip hr _ _ 0 hskip

/-! ## The reads of the buffer -/

theorem AllSafe.nil (source : List Char) : AllSafe source [] := by
  intro rd hrd
  simp at hrd

theorem AllSafe.append {source : List Char} {a b : List Read}
    (ha : AllSafe source a) (hb : AllSafe source b) : AllSafe source (a ++ b) := by
  intro rd hrd
  rcases List.mem_append.1 hrd with h | h
  · exact ha rd h
  · exact hb rd h

theorem AllSafe.ite {source : List Char} {p : Prop} [Decidable p] {a b : List Read}
    (ha : AllSafe source a) (hb : AllSafe source b) :
    AllSafe source (if p then a else b) := by
  split_ifs
  · exact ha
  · exact hb

theorem AllSafe.at_current (source : List Char) (rdr : Reader) (c : Nat)
    (hne : rdr ≠ Reader.byPeekNext) (h : c ≤ source.length) :
    AllSafe source [⟨rdr, c, c⟩] := by
  intro rd hrd
  rw [List.mem_singleton] at hrd
  subst hrd
  exact ⟨h, Nat.le_refl _, Nat.le_succ _, fun e => absurd e hne⟩

theorem isAtEndReads_safe {source : List Char} (s : Scanner)
    (h : s.current ≤ source.length) : AllSafe source (isAtEndReads s) :=
  AllSafe.at_current source _ _ (by decide) h

theorem peekReads_safe {source : List Char} (s : Scanner)
    (h : s.current ≤ source.length) : AllSafe source (peekReads s) :=
  AllSafe.at_current source _ _ (by decide) h

theorem advanceReads_safe {source : List Char} (s : Scanner)
    (h : s.current ≤ source.length) : AllSafe source (advanceReads source s) :=
  AllSafe.append (isAtEndReads_safe s h)
    (AllSafe.ite (AllSafe.nil source) (AllSafe.at_current source _ _ (by decide) h))

theorem matchReads_safe {source : List Char} (s : Scanner)
    (h : s.current ≤ source.length) : AllSafe source (matchReads source s) :=
  AllSafe.append (isAtEndReads_safe s h)
    (AllSafe.ite (AllSafe.nil source) (AllSafe.at_current source _ _ (by decide) h))

theorem peekNextReads_safe {source : List Char} (s : Scanner)
    (h : charAt source s.current = '/') : AllSafe source (peekNextReads source s) := by
  have hlt : s.current < source.length := charAt_lt source s.current (by rw [h]; decide)
  have hone : ∀ off, off ≤ source.length → s.current ≤ off → off ≤ s.current + 1 →
      AllSafe source [⟨Reader.byPeekNext, off, s.current⟩] := by
    intro off hoff h1 h2 rd hrd
    rw [List.mem_singleton] at hrd
    subst hrd
    exact ⟨hoff, h1, h2, fun _ => ⟨h, hlt⟩⟩
  have hcur := hone s.current (Nat.le_of_lt hlt) (Nat.le_refl _) (Nat.le_succ _)
  have hnext := hone (s.current + 1) hlt (Nat.le_succ _) (Nat.le_refl _)
  unfold peekNextReads
  exact AllSafe.append
    (AllSafe.append hcur (AllSafe.ite hnext (AllSafe.nil source)))
    (AllSafe.ite (AllSafe.nil source) hnext)

theorem advance_le {source : List Char} (s : Scanner) (h : s.current ≤ source.length) :
    (advance source s).2.current ≤ source.length :=
  (advance_moved source s).2.2.2 h

theorem matchChar_le {source : List Char} (expected : Char) (s : Scanner)
    (h : s.current ≤ source.length) :
    (matchChar source expected s).2.current ≤ source.length :=
  (matchChar_moved source expected s).2.2.2 h

theorem caseFReads_safe {source : List Char} {s : Scanner}
    (h : s.current ≤ source.length) : AllSafe source (caseFReads source s) := by
  have h1 := advance_le s h
  unfold caseFReads
  simp only []
  repeat' with_reducible first | apply AllSafe.append | apply AllSafe.ite
  all_goals with_reducible first
    | exact AllSafe.nil source
    | exact peekReads_safe _ h
    | exact peekReads_safe _ h1
    | exact advanceReads_safe _ h
    | exact advanceReads_safe _ h1

theorem caseUReads_safe {source : List Char} {s : Scanner}
    (h : s.current ≤ source.length) : AllSafe source (caseUReads source s) := by
  have h1 := advance_le s h
  unfold caseUReads
  simp only []
  repeat' with_reducible first | apply AllSafe.append | apply AllSafe.ite
  all_goals with_reducible first
    | exact AllSafe.nil source
    | exact peekReads_safe _ h
    | exact peekReads_safe _ h1
    | exact advanceReads_safe _ h
    | exact advanceReads_safe _ h1
    | exact caseFReads_safe h
    | exact caseFReads_safe h1

theorem caseIReads_safe {source : List Char} {s : Scanner}
    (h : s.current ≤ source.length) : AllSafe source (caseIReads source s) := by
  have h1 := advance_le s h
  unfold caseIReads
  simp only []
  repeat' with_reducible first | apply AllSafe.append | apply AllSafe.ite
  all_goals with_reducible first
    | exact AllSafe.nil source
    | exact peekReads_safe _ h
    | exact peekReads_safe _ h1
    | exact advanceReads_safe _ h
    | exact advanceReads_safe _ h1
    | exact caseUReads_safe h
    | exact caseUReads_safe h1

theorem casePercentReads_safe {source : List Char} {s : Scanner}
    (h : s.current ≤ source.length) : AllSafe source (casePercentReads source s) :=
  AllSafe.append (matchReads_safe s h) (caseIReads_safe (matchChar_le '=' s h))

theorem caseSlashReads_safe {source : List Char} {s : Scanner}
    (h : s.current ≤ source.length) : AllSafe source (caseSlashReads source s) :=
  AllSafe.append (matchReads_safe s h) (casePercentReads_safe (matchChar_le '=' s h))

theorem switchCharReads_safe {source : List Char} (c : Char) {s : Scanner}
    (h : s.current ≤ source.length) : AllSafe source (switchCharReads source c s) := by
  unfold switchCharReads
  repeat' with_reducible apply AllSafe.ite
  all_goals with_reducible first
    | exact AllSafe.nil source
    | exact matchReads_safe _ h
    | exact caseSlashReads_safe h
    | exact casePercentReads_safe h
    | exact caseIReads_safe h
    | exact caseUReads_safe h
    | exact caseFReads_safe h

theorem skipCommentLoopReads_safe (source : List Char) (fuel : Nat) (s : Scanner)
    (h : s.current ≤ source.length) :
    AllSafe source (skipCommentLoopReads source fuel s) := by
  induction fuel generalizing s with
  | zero => exact AllSafe.nil source
  | succ fuel ih =>
    rw [skipCommentLoopReads]
    exact AllSafe.append (isAtEndReads_safe s h)
      (AllSafe.ite (AllSafe.nil source)
        (AllSafe.append (AllSafe.at_current source _ _ (by decide) h)
          (AllSafe.ite
            (AllSafe.append (advanceReads_safe s h) (ih _ (advance_le s h)))
            (AllSafe.nil source))))

theorem skipWhitespaceLoopReads_safe (source : List Char) (fuel : Nat) (s : Scanner)
    (h : s.current ≤ source.length) :
    AllSafe source (skipWhitespaceLoopReads source fuel s) := by
  induction fuel generalizing s with
  | zero => exact AllSafe.nil source
  | succ fuel ih =>
    rw [skipWhitespaceLoopReads]
    simp only [peek]
    refine AllSafe.append (peekReads_safe s h) ?_
    split_ifs with h1 h2 h3 h4
    · exact AllSafe.append (advanceReads_safe s h) (ih _ (advance_le s h))
    · exact AllSafe.append (advanceReads_safe _ h) (ih _ (advance_le _ h))
    · obtain ⟨t, ht, hm, _⟩ :=
        skipCommentLoop_returns source (source.length + 1) s (by omega)
      rw [ht]
      exact AllSafe.append (peekNextReads_safe s h3)
        (AllSafe.append (skipCommentLoopReads_safe source _ s h) (ih t (hm.2.2.2 h)))
    · exact AllSafe.append (peekNextReads_safe s h3) (AllSafe.nil source)
    · exact AllSafe.nil source

theorem scanTokenReads_safe (source : List Char) (s : Scanner)
    (h : s.current ≤ source.length) : AllSafe source (scanTokenReads source s) := by
  obtain ⟨t, ht, hs⟩ := skipWhitespace_returns source s
  have hle : t.current ≤ source.length := hs.2.2.2 h
  have hle2 : ({ t with start := t.current } : Scanner).current ≤ source.length := hle
  unfold scanTokenReads
  rw [ht]
  simp only []
  exact AllSafe.append (skipWhitespaceLoopReads_safe source _ s h)
    (AllSafe.append (isAtEndReads_safe _ hle2)
      (AllSafe.ite (AllSafe.nil source)
        (AllSafe.append (advanceReads_safe _ hle2)
          (switchCharReads_safe _ (advance_le _ hle2)))))

theorem scanCallsReads_safe (source : List Char) (k : Nat) (s : Scanner)
    (h : s.current ≤ source.length) : AllSafe source (scanCallsReads source k s) := by
  induction k generalizing s with
  | zero => exact scanTokenReads_safe source s h
  | succ k ih =>
    obtain ⟨tok, t, ht, hi, _⟩ := scanToken_cursor source s h
    rw [scanCallsReads, ht]
    exact AllSafe.append (scanTokenReads_safe source s h) (ih t hi.2)

/-! ## The claims -/

/-- C1: the scenario source `i64 == ; // comment` + newline + `:`. The lexing
loop prints six tokens for it, not the five of the scenario: the `TOKEN_I64`
token has the lexeme `i6` of length 2, because lexer.c 261-263 returns without
an `advance()` over the `4`, and the `4` left behind is then reported as an
error token. The remaining four tokens are those of the scenario, and the
comment yields no token. -/
theorem scenario_tokens_with_short_i64 :
    shownTokens "i64 == ; // comment\n:" = some
      [(TOKEN_I64, "i6", 2, 1), (TOKEN_ERROR, "Unexpected character.", 21, 1),
       (TOKEN_EQUAL_EQUAL, "==", 2, 1), (TOKEN_SEMICOLON, ";", 1, 1),
       (TOKEN_COLON, ":", 1, 2), (TOKEN_EOF, "", 0, 2)] := by
  decide

/-- C2: what the first `scanToken` call returns on the operators where maximal
munch fails. The arms of lexer.c 217 and 219 are swapped: `<<` gives
`TOKEN_LESS` and a lone `<` gives `TOKEN_LEFT_SHIFT`, `>>` gives `TOKEN_GREATER`
and a lone `>` gives `TOKEN_RIGHT_SHIFT`. Lexer.c 233 and 235 lack the `return`:
`/`, `/=`, `%` and `%=` give an error token, never a slash or modulo kind. -/
theorem operators_without_maximal_munch :
    firstToken "<<" = some ((TOKEN_LESS, "<<", 2, 1), ⟨0, 2, 1⟩) ∧
    firstToken "<" = some ((TOKEN_LEFT_SHIFT, "<", 1, 1), ⟨0, 1, 1⟩) ∧
    firstToken ">>" = some ((TOKEN_GREATER, ">>", 2, 1), ⟨0, 2, 1⟩) ∧
    firstToken ">" = some ((TOKEN_RIGHT_SHIFT, ">", 1, 1), ⟨0, 1, 1⟩) ∧
    firstToken "/=" = some ((TOKEN_ERROR, "Unexpected character.", 21, 1), ⟨0, 2, 1⟩) ∧
    firstToken "/" = some ((TOKEN_ERROR, "Unexpected character.", 21, 1), ⟨0, 1, 1⟩) ∧
    firstToken "%=" = some ((TOKEN_ERROR, "Unexpected character.", 21, 1), ⟨0, 2, 1⟩) ∧
    firstToken "%" = some ((TOKEN_ERROR, "Unexpected character.", 21, 1), ⟨0, 1, 1⟩) := by
  refine ⟨?_, ?_, ?_, ?_, ?_, ?_, ?_, ?_⟩ <;> decide

/-- C3: the tokens printed for each of the ten numeric-type keywords alone. Nine
of them give one keyword token with the whole keyword as lexeme, then
`TOKEN_EOF`; `i64` gives `TOKEN_I64` with the lexeme `i6`, then an error token
for the `4`, then `TOKEN_EOF` (lexer.c 261-263 has no `advance()`). -/
theorem keyword_alone_tokens :
    shownTokens "i8" = some [(TOKEN_I8, "i8", 2, 1), (TOKEN_EOF, "", 0, 1)] ∧
    shownTokens "i16" = some [(TOKEN_I16, "i16", 3, 1), (TOKEN_EOF, "", 0, 1)] ∧
    shownTokens "i32" = some [(TOKEN_I32, "i32", 3, 1), (TOKEN_EOF, "", 0, 1)] ∧
    shownTokens "i64" = some [(TOKEN_I64, "i6", 2, 1),
      (TOKEN_ERROR, "Unexpected character.", 21, 1), (TOKEN_EOF, "", 0, 1)] ∧
    shownTokens "u8" = some [(TOKEN_U8, "u8", 2, 1), (TOKEN_EOF, "", 0, 1)] ∧
    shownTokens "u16" = some [(TOKEN_U16, "u16", 3, 1), (TOKEN_EOF, "", 0, 1)] ∧
    shownTokens "u32" = some [(TOKEN_U32, "u32", 3, 1), (TOKEN_EOF, "", 0, 1)] ∧
    shownTokens "u64" = some [(TOKEN_U64, "u64", 3, 1), (TOKEN_EOF, "", 0, 1)] ∧
    shownTokens "f32" = some [(TOKEN_F32, "f32", 3, 1), (TOKEN_EOF, "", 0, 1)] ∧
    shownTokens "f64" = some [(TOKEN_F64, "f64", 3, 1), (TOKEN_EOF, "", 0, 1)] := by
  refine ⟨?_, ?_, ?_, ?_, ?_, ?_, ?_, ?_, ?_, ?_⟩ <;> decide

/-- C4: keyword kinds returned for text that is not the keyword. The labels
`'/'` and `'%'` run into `case 'i':` (no `return` at lexer.c 233, 235), so `/8`
and `%8` give `TOKEN_I8`; `case 'i':` runs into `case 'u':` and that into
`case 'f':` (no `break` at lexer.c 264, 291), so `i18` gives `TOKEN_U8`, `i132`
gives `TOKEN_U32` and `u364` gives `TOKEN_F64`; `i64` gives `TOKEN_I64` with the
lexeme `i6`. -/
theorem keyword_kind_for_other_text :
    firstToken "/8" = some ((TOKEN_I8, "/8", 2, 1), ⟨0, 2, 1⟩) ∧
    firstToken "%8" = some ((TOKEN_I8, "%8", 2, 1), ⟨0, 2, 1⟩) ∧
    firstToken "i18" = some ((TOKEN_U8, "i18", 3, 1), ⟨0, 3, 1⟩) ∧
    firstToken "i132" = some ((TOKEN_U32, "i132", 4, 1), ⟨0, 4, 1⟩) ∧
    firstToken "u364" = some ((TOKEN_F64, "u364", 4, 1), ⟨0, 4, 1⟩) ∧
    firstToken "i64" = some ((TOKEN_I64, "i6", 2, 1), ⟨0, 2, 1⟩) := by
  refine ⟨?_, ?_, ?_, ?_, ?_, ?_⟩ <;> decide

/-- C5: a character `c` that is neither whitespace nor the terminator nor a
`case` label of the `switch`. A `scanToken` call with the cursor on `c` returns
an error token with the message `Unexpected character.` as lexeme and the
current line as line, and leaves the cursor one character past `c`; so does the
first call on `c` followed by any text `r`; and the source `@` is printed as
that error token on line 1 followed by `TOKEN_EOF` on line 1. -/
theorem unexpected_character_error (c : Char) (hws : c ∉ blankChars) (h0 : c ≠ NUL)
    (hl : c ∉ switchLabels) :
    (∀ (source : List Char) (s : Scanner), charAt source s.current = c →
      ∃ tok s1, scanToken source s = some (tok, s1) ∧ tok.token = TOKEN_ERROR ∧
        tok.lexeme source = "Unexpected character.".toList ∧ tok.line = s.line ∧
        s1.current = s.current + 1 ∧ s1.line = s.line) ∧
    (∀ r : List Char,
      ∃ tok s1, scanToken (c :: r) (initScanner (c :: r)) = some (tok, s1) ∧
        tok.token = TOKEN_ERROR ∧
        tok.lexeme (c :: r) = "Unexpected character.".toList ∧ tok.line = 1 ∧
        s1.current = 1) ∧
    shownTokens "@" =
      some [(TOKEN_ERROR, "Unexpected character.", 21, 1), (TOKEN_EOF, "", 0, 1)] := by
  have key : ∀ (source : List Char) (s : Scanner), charAt source s.current = c →
      ∃ tok s1, scanToken source s = some (tok, s1) ∧ tok.token = TOKEN_ERROR ∧
        tok.lexeme source = "Unexpected character.".toList ∧ tok.line = s.line ∧
        s1.current = s.current + 1 ∧ s1.line = s.line := by
    intro source s hc
    refine ⟨_, _, scanToken_unexpected source s (by rw [hc]; exact hws)
      (by rw [hc]; exact h0) (by rw [hc]; exact hl), rfl, ?_, rfl, rfl, rfl⟩
    show "Unexpected character.".toList.take "Unexpected character.".length = _
    decide
  refine ⟨key, ?_, by decide⟩
  intro r
  obtain ⟨tok, s1, h1, h2, h3, h4, h5, _⟩ := key (c :: r) (initScanner (c :: r)) rfl
  exact ⟨tok, s1, h1, h2, h3, h4, h5⟩

/-- Witness of C5 at the character `@` followed by `a`. -/
theorem unexpected_character_error_witness :
    '@' ∉ blankChars ∧ '@' ≠ NUL ∧ '@' ∉ switchLabels ∧
    ∃ tok s1, scanToken ['@', 'a'] (initScanner ['@', 'a']) = some (tok, s1) ∧
      tok.token = TOKEN_ERROR ∧
      tok.lexeme ['@', 'a'] = "Unexpected character.".toList ∧ tok.line = 1 ∧
      s1.current = 1 :=
  ⟨by decide, by decide, by decide,
    (unexpected_character_error '@' (by decide) (by decide) (by decide)).2.1 ['a']⟩

/-- C6: end-of-file is a fixed point. If a `scanToken` call returns a
`TOKEN_EOF` token and leaves the scanner `s1`, the token has length 0, and each
of the calls after it (the last of `k + 1` more) returns a `TOKEN_EOF` token of
length 0 whose line is the line of the first one, hence not smaller, and leaves
the scanner `s1` again. -/
theorem eof_idempotent (source : List Char) (s s1 : Scanner) (tok : Token)
    (h : scanToken source s = some (tok, s1)) (he : tok.token = TOKEN_EOF) (k : Nat) :
    tok.length = 0 ∧
    ∃ tok2, scanCalls source k s1 = some (tok2, s1) ∧ tok2.token = TOKEN_EOF ∧
      tok2.length = 0 ∧ tok.line ≤ tok2.line ∧ tok2.line = tok.line := by
  obtain ⟨h0, hst, htok⟩ := scanToken_eof h he
  have hlen : (createToken TOKEN_EOF s1).length = 0 := by
    simp only [createToken]
    omega
  subst htok
  exact ⟨hlen, _, scanCalls_at_eof h0 hst k, rfl, hlen, le_refl _, rfl⟩

/-- Witness of C6: the source of a space and a newline, whose first call returns
`TOKEN_EOF` on line 2, and the fourth call after it. -/
theorem eof_idempotent_witness :
    scanToken [' ', '\n'] (initScanner [' ', '\n']) =
      some (⟨TOKEN_EOF, CharPtr.inSource 2, 0, 2⟩, ⟨2, 2, 2⟩) ∧
    ∃ tok2, scanCalls [' ', '\n'] 3 ⟨2, 2, 2⟩ = some (tok2, ⟨2, 2, 2⟩) ∧
      tok2.token = TOKEN_EOF ∧ tok2.length = 0 ∧ 2 ≤ tok2.line ∧ tok2.line = 2 :=
  ⟨by decide,
    (eof_idempotent [' ', '\n'] (initScanner [' ', '\n'])
      ⟨2, 2, 2⟩ ⟨TOKEN_EOF, CharPtr.inSource 2, 0, 2⟩ (by decide) rfl 3).2⟩

/-- C8: each character of the fixed single-character set, alone as source, is
printed as one token of its kind with a lexeme of length 1, followed by
`TOKEN_EOF`; `(` and `[` both give `TOKEN_LEFT_PAREN`, `)` and `]` both give
`TOKEN_RIGHT_PAREN`. -/
theorem single_character_tokens :
    shownTokens ";" = some [(TOKEN_SEMICOLON, ";", 1, 1), (TOKEN_EOF, "", 0, 1)] ∧
    shownTokens "," = some [(TOKEN_COMMA, ",", 1, 1), (TOKEN_EOF, "", 0, 1)] ∧
    shownTokens ":" = some [(TOKEN_COLON, ":", 1, 1), (TOKEN_EOF, "", 0, 1)] ∧
    shownTokens "(" = some [(TOKEN_LEFT_PAREN, "(", 1, 1), (TOKEN_EOF, "", 0, 1)] ∧
    shownTokens "[" = some [(TOKEN_LEFT_PAREN, "[", 1, 1), (TOKEN_EOF, "", 0, 1)] ∧
    shownTokens ")" = some [(TOKEN_RIGHT_PAREN, ")", 1, 1), (TOKEN_EOF, "", 0, 1)] ∧
    shownTokens "]" = some [(TOKEN_RIGHT_PAREN, "]", 1, 1), (TOKEN_EOF, "", 0, 1)] ∧
    shownTokens "\x7b" = some [(TOKEN_LEFT_BRACE, "\x7b", 1, 1), (TOKEN_EOF, "", 0, 1)] ∧
    shownTokens "\x7d" = some [(TOKEN_RIGHT_BRACE, "\x7d", 1, 1), (TOKEN_EOF, "", 0, 1)] := by
  refine ⟨?_, ?_, ?_, ?_, ?_, ?_, ?_, ?_, ?_⟩ <;> decide

/-- C9: scanning ends within the input length. Every `scanToken` call returns;
a call that returns a token other than `TOKEN_EOF` leaves `current` greater than
it was; after `initScanner` one of the first `source.length + 1` calls returns
`TOKEN_EOF`; and the lexing loop of `runFile` ends after at most
`source.length + 1` tokens, the last of them `TOKEN_EOF`. -/
theorem scanning_terminates (source : List Char) :
    (∀ s : Scanner, ∃ r, scanToken source s = some r) ∧
    (∀ (s s1 : Scanner) (tok : Token), scanToken source s = some (tok, s1) →
      tok.token ≠ TOKEN_EOF → s.current < s1.current) ∧
    (∃ k, k ≤ source.length ∧ ∃ tok s1,
      scanCalls source k (initScanner source) = some (tok, s1) ∧
        tok.token = TOKEN_EOF) ∧
    (∃ toks, runFile source = some toks ∧ toks.length ≤ source.length + 1 ∧
      ∃ last, toks.getLast? = some last ∧ last.token = TOKEN_EOF) :=
  ⟨scanToken_returns source,
    fun _ _ _ h he => (scanToken_not_eof h he).1,
    scanCalls_reaches_eof source source.length (initScanner source) (Nat.sub_le _ _),
    runFile_returns source⟩

/-- Witness of C9: on the source `a;` the first call returns an error token and
moves `current` from 0 to 1. -/
theorem scanning_terminates_witness :
    scanToken ['a', ';'] (initScanner ['a', ';']) =
      some (⟨TOKEN_ERROR, CharPtr.inLiteral "Unexpected character.", 21, 1⟩, ⟨0, 1, 1⟩) ∧
    (⟨TOKEN_ERROR, CharPtr.inLiteral "Unexpected character.", 21, 1⟩ : Token).token ≠
      TOKEN_EOF ∧
    (initScanner ['a', ';']).current < (⟨0, 1, 1⟩ : Scanner).current :=
  ⟨by decide, by decide,
    (scanning_terminates ['a', ';']).2.1 (initScanner ['a', ';']) ⟨0, 1, 1⟩
      ⟨TOKEN_ERROR, CharPtr.inLiteral "Unexpected character.", 21, 1⟩
      (by decide) (by decide)⟩

/-- C10: error tokens returned after more than one consumed character. On `/=`
the dropped `createToken` of lexer.c 233 leaves both characters consumed before
`default:` is reached; on `i3`, `i1` and `u6` the digit is consumed by
`advance()` before the missing second digit sends control on to `default:`; on
`i136` the labels `'i'`, `'u'` and `'f'` consume one digit each, four characters
in all. In each case `current` is past `start + 1` after the call. -/
theorem error_after_several_characters :
    firstToken "/=" = some ((TOKEN_ERROR, "Unexpected character.", 21, 1), ⟨0, 2, 1⟩) ∧
    firstToken "i3" = some ((TOKEN_ERROR, "Unexpected character.", 21, 1), ⟨0, 2, 1⟩) ∧
    firstToken "i1" = some ((TOKEN_ERROR, "Unexpected character.", 21, 1), ⟨0, 2, 1⟩) ∧
    firstToken "u6" = some ((TOKEN_ERROR, "Unexpected character.", 21, 1), ⟨0, 2, 1⟩) ∧
    firstToken "i136" = some ((TOKEN_ERROR, "Unexpected character.", 21, 1), ⟨0, 4, 1⟩) := by
  refine ⟨?_, ?_, ?_, ?_, ?_⟩ <;> decide

/-- C11: the first token for sources that begin with `i`, `u` or `f` and not
with one of the ten keywords. `i3` is printed as an error token and then
`TOKEN_EOF`, and `i2`, `u7` and a bare `f` give an error token; but `i18` and
`i38` give `TOKEN_U8`, `i664` gives `TOKEN_U64` and `u632` gives `TOKEN_F32`,
because a failed second-digit test in `case 'i':` or `case 'u':` runs on into
the next label (no `break` at lexer.c 264, 291). -/
theorem incomplete_suffix_tokens :
    shownTokens "i3" =
      some [(TOKEN_ERROR, "Unexpected character.", 21, 1), (TOKEN_EOF, "", 0, 1)] ∧
    firstToken "i2" = some ((TOKEN_ERROR, "Unexpected character.", 21, 1), ⟨0, 1, 1⟩) ∧
    firstToken "u7" = some ((TOKEN_ERROR, "Unexpected character.", 21, 1), ⟨0, 1, 1⟩) ∧
    firstToken "f" = some ((TOKEN_ERROR, "Unexpected character.", 21, 1), ⟨0, 1, 1⟩) ∧
    firstToken "i18" = some ((TOKEN_U8, "i18", 3, 1), ⟨0, 3, 1⟩) ∧
    firstToken "i38" = some ((TOKEN_U8, "i38", 3, 1), ⟨0, 3, 1⟩) ∧
    firstToken "i664" = some ((TOKEN_U64, "i664", 4, 1), ⟨0, 4, 1⟩) ∧
    firstToken "u632" = some ((TOKEN_F32, "u632", 4, 1), ⟨0, 4, 1⟩) := by
  refine ⟨?_, ?_, ?_, ?_, ?_, ?_, ?_, ?_⟩ <;> decide

/-- C12: the angle-bracket operators as the code scans them. The arms of the
conditionals at lexer.c 217 and 219 are swapped: `<<` gives one `TOKEN_LESS` of
length 2 and `<` followed by another character gives one `TOKEN_LEFT_SHIFT` of
length 1; `>>` gives one `TOKEN_GREATER` of length 2 and `>` followed by another
character gives one `TOKEN_RIGHT_SHIFT` of length 1. -/
theorem angle_bracket_tokens :
    shownTokens "<<" = some [(TOKEN_LESS, "<<", 2, 1), (TOKEN_EOF, "", 0, 1)] ∧
    firstToken "<a" = some ((TOKEN_LEFT_SHIFT, "<", 1, 1), ⟨0, 1, 1⟩) ∧
    firstToken "<>" = some ((TOKEN_LEFT_SHIFT, "<", 1, 1), ⟨0, 1, 1⟩) ∧
    shownTokens ">>" = some [(TOKEN_GREATER, ">>", 2, 1), (TOKEN_EOF, "", 0, 1)] ∧
    firstToken ">b" = some ((TOKEN_RIGHT_SHIFT, ">", 1, 1), ⟨0, 1, 1⟩) ∧
    firstToken "><" = some ((TOKEN_RIGHT_SHIFT, ">", 1, 1), ⟨0, 1, 1⟩) := by
  refine ⟨?_, ?_, ?_, ?_, ?_, ?_⟩ <;> decide

/-- C13: a slash that does not start a comment. `skipWhitespace` consumes no
character of `/x`, `/=x` or `%x`, but the call of `scanToken` returns no slash
or modulo token: lexer.c 233 and 235 drop the token that `createToken` builds
(no `return`), so `/x`, `/=x`, `%x` and `%=x` give an error token and `/32`
gives `TOKEN_I32`. -/
theorem slash_and_modulo_tokens :
    skipWhitespace "/x".toList (initScanner "/x".toList) = some ⟨0, 0, 1⟩ ∧
    skipWhitespace "/=x".toList (initScanner "/=x".toList) = some ⟨0, 0, 1⟩ ∧
    skipWhitespace "%x".toList (initScanner "%x".toList) = some ⟨0, 0, 1⟩ ∧
    firstToken "/x" = some ((TOKEN_ERROR, "Unexpected character.", 21, 1), ⟨0, 1, 1⟩) ∧
    firstToken "/=x" = some ((TOKEN_ERROR, "Unexpected character.", 21, 1), ⟨0, 2, 1⟩) ∧
    firstToken "%x" = some ((TOKEN_ERROR, "Unexpected character.", 21, 1), ⟨0, 1, 1⟩) ∧
    firstToken "%=x" = some ((TOKEN_ERROR, "Unexpected character.", 21, 1), ⟨0, 2, 1⟩) ∧
    firstToken "/32" = some ((TOKEN_I32, "/32", 3, 1), ⟨0, 3, 1⟩) := by
  refine ⟨?_, ?_, ?_, ?_, ?_, ?_, ?_, ?_⟩ <;> decide

/-- C14: maximal munch for `=`. The source `==` is printed as one
`TOKEN_EQUAL_EQUAL` of length 2 followed by `TOKEN_EOF`, and for every character
`c` other than `=` and every text `r` the first token of `=` followed by `c` and
`r` is one `TOKEN_EQUAL` whose lexeme is the `=` alone, of length 1. -/
theorem equal_maximal_munch :
    shownTokens "==" = some [(TOKEN_EQUAL_EQUAL, "==", 2, 1), (TOKEN_EOF, "", 0, 1)] ∧
    ∀ (c : Char) (r : List Char), c ≠ '=' →
      ∃ tok s1, scanToken ('=' :: c :: r) (initScanner ('=' :: c :: r)) = some (tok, s1) ∧
        tok.token = TOKEN_EQUAL ∧ tok.length = 1 ∧ tok.lexeme ('=' :: c :: r) = ['='] ∧
        tok.line = 1 ∧ s1.current = 1 := by
  refine ⟨by decide, ?_⟩
  intro c r hc
  have h0 : charAt ('=' :: c :: r) (initScanner ('=' :: c :: r)).current = '=' := rfl
  have hscan := scanToken_on_char ('=' :: c :: r) (initScanner ('=' :: c :: r))
    (by rw [h0]; decide) (by rw [h0]; decide) (Or.inl (by rw [h0]; decide))
  have h1 : charAt ('=' :: c :: r) 1 ≠ '=' := hc
  rw [h0, switchChar_equal] at hscan
  unfold returnMatch at hscan
  rw [matchChar_of_ne _ _ _ h1] at hscan
  exact ⟨_, _, hscan, rfl, rfl, rfl, rfl, rfl⟩

/-- Witness of C14: `=` followed by `a` and `b`. -/
theorem equal_maximal_munch_witness :
    'a' ≠ '=' ∧
    ∃ tok s1, scanToken ['=', 'a', 'b'] (initScanner ['=', 'a', 'b']) = some (tok, s1) ∧
      tok.token = TOKEN_EQUAL ∧ tok.length = 1 ∧ tok.lexeme ['=', 'a', 'b'] = ['='] ∧
      tok.line = 1 ∧ s1.current = 1 :=
  ⟨by decide, equal_maximal_munch.2 'a' ['b'] (by decide)⟩

/-- C16: the cursor invariant `start ≤ current ≤ length`. It holds after
`initScanner`, and `advance`, `match`, `skipWhitespace` and `scanToken` each
return, keep it and leave `current` not smaller than it was: `current` never
moves past the terminator or backwards, and `start` is never greater than
`current`. -/
theorem cursor_invariant (source : List Char) :
    CursorInv source (initScanner source) ∧
    (∀ s : Scanner, CursorInv source s →
      CursorInv source (advance source s).2 ∧ s.current ≤ (advance source s).2.current) ∧
    (∀ (s : Scanner) (expected : Char), CursorInv source s →
      CursorInv source (matchChar source expected s).2 ∧
        s.current ≤ (matchChar source expected s).2.current) ∧
    (∀ s : Scanner, CursorInv source s →
      ∃ t, skipWhitespace source s = some t ∧ CursorInv source t ∧
        s.current ≤ t.current) ∧
    (∀ s : Scanner, CursorInv source s →
      ∃ tok t, scanToken source s = some (tok, t) ∧ CursorInv source t ∧
        s.current ≤ t.current) := by
  refine ⟨⟨Nat.le_refl _, Nat.zero_le _⟩, ?_, ?_, ?_, ?_⟩
  · intro s hi
    exact ⟨hi.of_moved (advance_moved source s), (advance_moved source s).2.2.1⟩
  · intro s expected hi
    exact ⟨hi.of_moved (matchChar_moved source expected s),
      (matchChar_moved source expected s).2.2.1⟩
  · intro s hi
    obtain ⟨t, ht, hs⟩ := skipWhitespace_returns source s
    exact ⟨t, ht, hi.of_skipped hs, hs.2.2.1⟩
  · intro s hi
    exact scanToken_cursor source s hi.2

/-- Witness of C16: on the source `a;` the scanner after the first token
satisfies the invariant, and `advance` keeps it. -/
theorem cursor_invariant_witness :
    CursorInv ['a', ';'] ⟨0, 1, 1⟩ ∧
    CursorInv ['a', ';'] (advance ['a', ';'] ⟨0, 1, 1⟩).2 ∧
    (⟨0, 1, 1⟩ : Scanner).current ≤ (advance ['a', ';'] ⟨0, 1, 1⟩).2.current :=
  have hi : CursorInv ['a', ';'] ⟨0, 1, 1⟩ := ⟨by decide, by decide⟩
  ⟨hi, (cursor_invariant ['a', ';']).2.1 ⟨0, 1, 1⟩ hi⟩

/-- C15, the claim as stated fails: on the source of 2147483647 newlines the
first call returns a token that begins at offset 2147483647, with 2147483647
newlines before it, and its line is `INT_MIN` under `intIncr` and, being an
`int`, not 1 plus that number. -/
theorem line_accounting_overflows :
    ∃ tok s1,
      scanCalls (List.replicate 2147483647 '\n') 0
          (initScanner (List.replicate 2147483647 '\n')) = some (tok, s1) ∧
        s1.start = 2147483647 ∧
        newlinesBefore (List.replicate 2147483647 '\n') s1.start = 2147483647 ∧
        tok.line = -2147483648 ∧
        tok.line ≠ 1 + (newlinesBefore (List.replicate 2147483647 '\n') s1.start : Int) := by
  obtain ⟨h, _, hn⟩ := scanToken_newlines 2147483647
  rw [wrapInt_int_max_succ] at h
  have h1 : scanCalls (List.replicate 2147483647 '\n') 0
      (initScanner (List.replicate 2147483647 '\n')) =
      some (⟨TOKEN_EOF, CharPtr.inSource 2147483647, 0, -2147483648⟩,
        ⟨2147483647, 2147483647, -2147483648⟩) := by
    rw [scanCalls]
    exact h
  refine ⟨_, _, h1, rfl, hn, rfl, ?_⟩
  show (-2147483648 : Int) ≠
    1 + (newlinesBefore (List.replicate 2147483647 '\n') 2147483647 : Int)
  rw [hn]
  omega

/-- C15, amended: line accounting. For every source and every `k`, the call
number `k + 1` after `initScanner` returns a token whose line is 1 plus the
number of newline characters of the source before `start`, the offset where the
token begins, if that number is below 2147483647, so that 1 plus it is an
`int`; no character from `start` up to `current` is a newline, so no token
spans a line break; and a token other than the error token points at `start`
and has the length `current - start`. -/
theorem line_accounting (source : List Char) (k : Nat) :
    ∃ tok s1, scanCalls source k (initScanner source) = some (tok, s1) ∧
      (newlinesBefore source s1.start < 2147483647 →
        tok.line = 1 + newlinesBefore source s1.start) ∧
      Plain source s1.start s1.current ∧
      (tok.token ≠ TOKEN_ERROR →
        tok.start = CharPtr.inSource s1.start ∧ tok.length = s1.current - s1.start) := by
  obtain ⟨⟨tok, s1⟩, hr⟩ := scanCalls_returns source k (initScanner source)
  obtain ⟨_, _, hline, hp, _, hshape⟩ := scanCalls_line k (LineInv.init source) hr
  refine ⟨tok, s1, hr, ?_, hp, ?_⟩
  · intro hlt
    rw [hline]
    exact wrapInt_of_isInt (by unfold IsInt; omega)
  · intro hne
    rcases hshape with e | ⟨kind, e⟩
    · exact absurd (by rw [e]; rfl) hne
    · rw [e]
      exact ⟨rfl, rfl⟩

/-- Witness of C15: the second call on the source `a`, newline, `;` returns the
semicolon at offset 2 on line 2, one newline before it. -/
theorem line_accounting_witness :
    scanCalls ['a', '\n', ';'] 1 (initScanner ['a', '\n', ';']) =
      some (⟨TOKEN_SEMICOLON, CharPtr.inSource 2, 1, 2⟩, ⟨2, 3, 2⟩) ∧
    newlinesBefore ['a', '\n', ';'] 2 < 2147483647 ∧
    (2 : Int) = 1 + newlinesBefore ['a', '\n', ';'] 2 ∧
    Plain ['a', '\n', ';'] 2 3 := by
  have heval : scanCalls ['a', '\n', ';'] 1 (initScanner ['a', '\n', ';']) =
      some (⟨TOKEN_SEMICOLON, CharPtr.inSource 2, 1, 2⟩, ⟨2, 3, 2⟩) := by decide
  have hlt : newlinesBefore ['a', '\n', ';'] 2 < 2147483647 := by decide
  obtain ⟨tok, s1, h, hline, hp, _⟩ := line_accounting ['a', '\n', ';'] 1
  rw [heval] at h
  have h1 := congrArg Prod.fst (Option.some.inj h)
  have h2 := congrArg Prod.snd (Option.some.inj h)
  simp only at h1 h2
  subst h1
  subst h2
  exact ⟨heval, hlt, hline hlt, hp⟩

/-- C17: comment text is transparent. For a comment body `b` without newline
(and without NUL, as in any C string) and any text `r`, the lexing loop prints
for `//`, `b`, newline, `r` the same tokens, in kind, lexeme, length and line,
as for newline, `r`; the comment loop stops on the newline of the comment
without consuming it; and a comment that runs to the end of the source is
printed as `TOKEN_EOF` alone. -/
theorem comment_transparent (b r : List Char) (hn : '\n' ∉ b) (h0 : NUL ∉ b) :
    (∃ toks1 toks2,
      runFile ('/' :: '/' :: (b ++ '\n' :: r)) = some toks1 ∧
      runFile ('\n' :: r) = some toks2 ∧
      toks1.map (Token.shown ('/' :: '/' :: (b ++ '\n' :: r))) =
        toks2.map (Token.shown ('\n' :: r))) ∧
    skipCommentLoop ('/' :: '/' :: (b ++ '\n' :: r))
        (('/' :: '/' :: (b ++ '\n' :: r)).length + 1)
        (initScanner ('/' :: '/' :: (b ++ '\n' :: r))) =
      some ⟨0, b.length + 2, 1⟩ ∧
    charAt ('/' :: '/' :: (b ++ '\n' :: r)) (b.length + 2) = '\n' ∧
    runFile ('/' :: '/' :: b) =
      some [⟨TOKEN_EOF, CharPtr.inSource (b.length + 2), 0, 1⟩] := by
  obtain ⟨hcom, hfirst⟩ := scanToken_after_comment b r hn h0
  obtain ⟨toks, h2, h1⟩ := runFile_shift_of_first ('/' :: '/' :: b) ('\n' :: r) hfirst
  refine ⟨⟨_, toks, h1, h2, ?_⟩, hcom, charAt_append_cons ('/' :: '/' :: b) r '\n', ?_⟩
  · rw [List.map_map]
    apply List.map_congr_left
    intro tok _
    exact shown_shiftToken ('/' :: '/' :: b) ('\n' :: r) tok
  · have hn2 : '\n' ∉ '/' :: '/' :: b := by
      simp only [List.mem_cons, not_or]
      exact ⟨by decide, by decide, hn⟩
    have h02 : NUL ∉ '/' :: '/' :: b := by
      simp only [List.mem_cons, not_or]
      exact ⟨by decide, by decide, h0⟩
    have hrun := (scanToken_blank ('/' :: '/' :: b) (Blank.lastComment b hn) h02).2
    have hw : wrapInt (1 + ((0 : Nat) : Int)) = 1 := by
      unfold wrapInt
      omega
    rw [List.count_eq_zero_of_not_mem hn2, hw] at hrun
    exact hrun

/-- Witness of C17: the comment body `a /` before a newline and `;i8`. -/
theorem comment_transparent_witness :
    '\n' ∉ ['a', ' ', '/'] ∧ NUL ∉ ['a', ' ', '/'] ∧
    (∃ toks1 toks2,
      runFile ['/', '/', 'a', ' ', '/', '\n', ';', 'i', '8'] = some toks1 ∧
      runFile ['\n', ';', 'i', '8'] = some toks2 ∧
      toks1.map (Token.shown ['/', '/', 'a', ' ', '/', '\n', ';', 'i', '8']) =
        toks2.map (Token.shown ['\n', ';', 'i', '8'])) ∧
    runFile ['/', '/', 'a', ' ', '/'] = some [⟨TOKEN_EOF, CharPtr.inSource 5, 0, 1⟩] :=
  ⟨by decide, by decide,
    (comment_transparent ['a', ' ', '/'] [';', 'i', '8'] (by decide) (by decide)).1,
    (comment_transparent ['a', ' ', '/'] [';', 'i', '8'] (by decide) (by decide)).2.2.2⟩

/-- C18: no read goes past the terminator. `initScanner` reads nothing, and
every read of the buffer made during any number of `scanToken` calls after it,
by `isAtEnd`, `peek`, `peekNext`, `advance`, `match` or the comment loop of
`skipWhitespace`, is at an offset from 0 to `length`, the offset of the
terminator; every read by `peekNext` happens while the character at `current`
is `'/'`, hence with `current` before the terminator, so that the offset
`current + 1` it reads is at most `length`. The source may be any buffer, with
or without a NUL inside. -/
theorem reads_within_buffer (source : List Char) (k : Nat) :
    ∀ rd ∈ scanCallsReads source k (initScanner source),
      rd.offset ≤ source.length ∧
        (rd.reader = Reader.byPeekNext →
          charAt source rd.current = '/' ∧ rd.current < source.length ∧
            rd.offset ≤ rd.current + 1) := by
  intro rd hrd
  have hs := scanCallsReads_safe source k (initScanner source) (Nat.zero_le _) rd hrd
  exact ⟨hs.1, fun e => ⟨(hs.2.2.2 e).1, (hs.2.2.2 e).2, hs.2.2.1⟩⟩

/-- Witness of C18: on the source `//` the first call makes `peekNext` read
offset 1 with `current` at 0, inside the buffer of length 2. -/
theorem reads_within_buffer_witness :
    (⟨Reader.byPeekNext, 1, 0⟩ : Read) ∈
      scanCallsReads ['/', '/'] 0 (initScanner ['/', '/']) ∧
    (1 ≤ ['/', '/'].length ∧
      (Reader.byPeekNext = Reader.byPeekNext →
        charAt ['/', '/'] 0 = '/' ∧ 0 < ['/', '/'].length ∧ 1 ≤ 0 + 1)) :=
  ⟨by decide,
    reads_within_buffer ['/', '/'] 0 ⟨Reader.byPeekNext, 1, 0⟩ (by decide)⟩

end Lyka
